import Mathlib

/-!
# Role search: `pkg/models/resources/v1alpha2/role/roles.go`

A shallow embedding of the role searcher (`match`, `fuzzy`, `compare`,
`Search`, `isUserFacingRole`) together with the library routines it calls.

Conventions of the embedding

* a Go `string` is a Lean `String`; substring tests and comparisons work on
  the character list, which for well-formed UTF-8 agrees with Go's bytewise
  behaviour;
* a Go `map[string]string` is the list of its entries; `range` visits the
  entries in list order, a lookup returns the first entry with the key;
* `metav1.Time` is an integer instant;
* a call that returns `(value, error)` returns an `Except`;
* `sort.Slice` is the routine of the Go releases of the repository's time
  (Go 1.8 to 1.18): `quickSort_func` with `doPivot_func`, `heapSort_func`,
  the shell pass and `insertionSort_func`, run on the backing array of the
  slice, a function from index to element.
-/

namespace RoleSearch

/-! ## Data model -/

/-- The type `map[string]string`: the entries of the map. -/
abbrev GoMap := List (String × String)

/-- The Go `error` value handed back by the lister. -/
abbrev GoError := String

/-- The fields of `rbac.Role` that the searcher reads. -/
structure Role where
  Name : String
  Labels : GoMap
  Annotations : GoMap
  CreationTimestamp : Int
deriving DecidableEq, Repr

/-- The struct `params.Conditions`: the exact-match map and the fuzzy map. -/
structure Conditions where
  Match : GoMap
  Fuzzy : GoMap
deriving DecidableEq, Repr

/-- The string constants of packages `v1alpha2` and `constants` that
`roles.go` refers to. Their declarations are outside the file, so they are
taken as parameters. -/
structure Consts where
  Name : String
  Keyword : String
  UserFacing : String
  Label : String
  Annotation : String
  CreateTime : String
  DisplayNameAnnotationKey : String
  CreatorAnnotationKey : String
deriving DecidableEq, Repr

/-- The values of the constants used in the worked examples. -/
def exampleConsts : Consts where
  Name := "name"
  Keyword := "keyword"
  UserFacing := "userfacing"
  Label := "label"
  Annotation := "annotation"
  CreateTime := "createTime"
  DisplayNameAnnotationKey := "kubesphere.io/alias-name"
  CreatorAnnotationKey := "kubesphere.io/creator"

/-- The searcher: `informers` stands for the role lister reached through
`s.informers.Rbac().V1().Roles().Lister()`; applied to a namespace it is the
outcome of `.Roles(namespace).List(labels.Everything())`. -/
structure roleSearcher where
  informers : String → Except GoError (List Role)

/-! ## Go library routines -/

/-- The map index expression `m[k]` in its one-value form: the zero value
`""` when the key is absent. -/
def GoMap.index (m : GoMap) (k : String) : String :=
  (m.lookup k).getD ""

/-- The function `strings.Contains(s, substr)`: `substr` occurs within `s`. -/
def strings.Contains (s substr : String) : Bool :=
  decide (substr.data <:+: s.data)

/-- The pieces of a character list between the occurrences of `sep`. -/
def strings.splitChars (sep : Char) : List Char → List (List Char)
  | [] => [[]]
  | c :: cs =>
    if c = sep then [] :: strings.splitChars sep cs
    else
      match strings.splitChars sep cs with
      | [] => [[c]]
      | p :: ps => (c :: p) :: ps

/-- The function `strings.Split(s, sep)` for a one-character separator. -/
def strings.Split (s : String) (sep : Char) : List String :=
  (strings.splitChars sep s.data).map String.mk

/-- Lexicographic three-way comparison of character lists. -/
def strings.compareChars : List Char → List Char → Int
  | [], [] => 0
  | [], _ :: _ => -1
  | _ :: _, [] => 1
  | a :: as, b :: bs =>
    if a.toNat < b.toNat then -1
    else if b.toNat < a.toNat then 1
    else strings.compareChars as bs

/-- The function `strings.Compare(a, b)`: -1, 0 or +1. -/
def strings.Compare (a b : String) : Int :=
  strings.compareChars a.data b.data

/-! ## The Go library sort (`sort.Slice` of Go 1.8 to 1.18)

The routines of `zfuncversion.go`, statement by statement. A `for` loop is a
recursion on a counter that bounds the number of its turns. -/

/-- The backing array of a slice: the element found at each index. -/
structure sort.Mem (α : Type) where
  get : Nat → α

/-- The call `data.Swap(i, j)`. -/
def sort.Swap {α : Type} (data : sort.Mem α) (i j : Nat) : sort.Mem α :=
  let x := data.get i
  let y := data.get j
  ⟨fun k => if k = i then y else if k = j then x else data.get k⟩

/-- The call `data.Less(i, j)`: the closure `less` of the caller read on the
elements found at the two indices. -/
def sort.Less {α : Type} (less : α → α → Bool) (data : sort.Mem α) (i j : Nat) : Bool :=
  less (data.get i) (data.get j)

/-- The inner loop of `insertionSort_func`,
`for j := i; j > a && data.Less(j, j-1); j--` with body `data.Swap(j, j-1)`;
the counter is `j - a`. -/
def sort.insertionSort_inner {α : Type} (less : α → α → Bool) (a : Nat) :
    Nat → sort.Mem α → sort.Mem α
  | 0, data => data
  | k + 1, data =>
    if sort.Less less data (a + k + 1) (a + k) then
      sort.insertionSort_inner less a k (sort.Swap data (a + k + 1) (a + k))
    else data

/-- The outer loop of `insertionSort_func`, `for i := a + 1; i < b; i++`; the
counter is `b - i`. -/
def sort.insertionSort_outer {α : Type} (less : α → α → Bool) (a : Nat) :
    Nat → Nat → sort.Mem α → sort.Mem α
  | 0, _, data => data
  | n + 1, i, data =>
    sort.insertionSort_outer less a n (i + 1) (sort.insertionSort_inner less a (i - a) data)

/-- The routine `insertionSort_func(data, a, b)` of package `sort`. -/
def sort.insertionSort_func {α : Type} (less : α → α → Bool) (data : sort.Mem α) (a b : Nat) :
    sort.Mem α :=
  sort.insertionSort_outer less a (b - (a + 1)) (a + 1) data

/-- The child that `siftDown_func` compares with the root: the right child
when it exists and the left child is `Less` than it, the left child
otherwise. -/
def sort.siftDown_child {α : Type} (less : α → α → Bool) (data : sort.Mem α)
    (hi first root : Nat) : Nat :=
  if 2 * root + 1 + 1 < hi
      && sort.Less less data (first + (2 * root + 1)) (first + (2 * root + 1) + 1) then
    2 * root + 1 + 1
  else 2 * root + 1

/-- The loop of `siftDown_func(data, lo, hi, first)`; `root` starts at `lo`.
The counter bounds the number of turns: `root` grows in every turn and the
loop returns once `2*root + 1 >= hi`. -/
def sort.siftDown_loop {α : Type} (less : α → α → Bool) (hi first : Nat) :
    Nat → Nat → sort.Mem α → sort.Mem α
  | 0, _, data => data
  | n + 1, root, data =>
    if 2 * root + 1 ≥ hi then data
    else if !sort.Less less data (first + root) (first + sort.siftDown_child less data hi first root)
    then data
    else
      sort.siftDown_loop less hi first n (sort.siftDown_child less data hi first root)
        (sort.Swap data (first + root) (first + sort.siftDown_child less data hi first root))

/-- The routine `siftDown_func(data, lo, hi, first)`. -/
def sort.siftDown_func {α : Type} (less : α → α → Bool) (data : sort.Mem α) (lo hi first : Nat) :
    sort.Mem α :=
  sort.siftDown_loop less hi first hi lo data

/-- The first loop of `heapSort_func`, `for i := (hi - 1) / 2; i >= 0; i--`
with body `siftDown_func(data, i, hi, first)`; the counter is `i + 1`. -/
def sort.heapSort_build {α : Type} (less : α → α → Bool) (hi first : Nat) :
    Nat → sort.Mem α → sort.Mem α
  | 0, data => data
  | i + 1, data => sort.heapSort_build less hi first i (sort.siftDown_func less data i hi first)

/-- The second loop of `heapSort_func`, `for i := hi - 1; i >= 0; i--` with
body `data.Swap(first, first+i); siftDown_func(data, lo, i, first)`; the
counter is `i + 1`. -/
def sort.heapSort_pop {α : Type} (less : α → α → Bool) (first : Nat) :
    Nat → sort.Mem α → sort.Mem α
  | 0, data => data
  | i + 1, data =>
    sort.heapSort_pop less first i
      (sort.siftDown_func less (sort.Swap data first (first + i)) 0 i first)

/-- The routine `heapSort_func(data, a, b)`. -/
def sort.heapSort_func {α : Type} (less : α → α → Bool) (data : sort.Mem α) (a b : Nat) :
    sort.Mem α :=
  sort.heapSort_pop less a (b - a)
    (sort.heapSort_build less (b - a) a ((b - a - 1) / 2 + 1) data)

/-- The first statement of `medianOfThree_func`:
`if data.Less(m1, m0) then data.Swap(m1, m0)`. -/
def sort.swapIfLess {α : Type} (less : α → α → Bool) (data : sort.Mem α) (i j : Nat) :
    sort.Mem α :=
  if sort.Less less data i j then sort.Swap data i j else data

/-- The routine `medianOfThree_func(data, m1, m0, m2)`. -/
def sort.medianOfThree_func {α : Type} (less : α → α → Bool) (data : sort.Mem α)
    (m1 m0 m2 : Nat) : sort.Mem α :=
  if sort.Less less (sort.swapIfLess less data m1 m0) m2 m1 then
    sort.swapIfLess less (sort.Swap (sort.swapIfLess less data m1 m0) m2 m1) m1 m0
  else sort.swapIfLess less data m1 m0

/-- A loop `for ; i < c && p(i); i++` with empty body: the final `i`; the
counter is `c - i`. -/
def sort.scanUp (p : Nat → Bool) : Nat → Nat → Nat
  | 0, i => i
  | n + 1, i => if p i then sort.scanUp p n (i + 1) else i

/-- A loop `for ; b < c && p(c-1); c--` with empty body: the final `c`; the
counter is `c - b`. -/
def sort.scanDown (p : Nat → Bool) : Nat → Nat → Nat
  | 0, c => c
  | n + 1, c => if p (c - 1) then sort.scanDown p n (c - 1) else c

/-- The partition loop of `doPivot_func`: the two scans, then either `break`
(when `b >= c`) or `data.Swap(b, c-1); b++; c--`. The counter bounds `c - b`.
The result is the new `data`, `b` and `c`. -/
def sort.doPivot_partition {α : Type} (less : α → α → Bool) (pivot : Nat) :
    Nat → sort.Mem α → Nat → Nat → sort.Mem α × Nat × Nat
  | 0, data, b, c => (data, b, c)
  | n + 1, data, b, c =>
    let b1 := sort.scanUp (fun i => !sort.Less less data pivot i) (c - b) b
    let c1 := sort.scanDown (fun i => sort.Less less data pivot i) (c - b1) c
    if b1 ≥ c1 then (data, b1, c1)
    else sort.doPivot_partition less pivot n (sort.Swap data b1 (c1 - 1)) (b1 + 1) (c1 - 1)

/-- The loop of `doPivot_func` that protects against many duplicates: the two
scans, then either `break` (when `a >= b`) or `data.Swap(a, b-1); a++; b--`.
The counter bounds `b - a`. The result is the new `data`, `a` and `b`. -/
def sort.doPivot_protect {α : Type} (less : α → α → Bool) (pivot : Nat) :
    Nat → sort.Mem α → Nat → Nat → sort.Mem α × Nat × Nat
  | 0, data, a, b => (data, a, b)
  | n + 1, data, a, b =>
    let b1 := sort.scanDown (fun i => !sort.Less less data i pivot) (b - a) b
    let a1 := sort.scanUp (fun i => sort.Less less data i pivot) (b1 - a) a
    if a1 ≥ b1 then (data, a1, b1)
    else sort.doPivot_protect less pivot n (sort.Swap data a1 (b1 - 1)) (a1 + 1) (b1 - 1)

/-- The part of `doPivot_func` that tests three points for equality to the
pivot. The result is the new `data`, `b`, `c` and the count `dups`. -/
def sort.doPivot_dups {α : Type} (less : α → α → Bool) (data : sort.Mem α)
    (pivot m hi b c : Nat) : sort.Mem α × Nat × Nat × Nat :=
  let s1 : sort.Mem α × Nat × Nat :=
    if !sort.Less less data pivot (hi - 1) then (sort.Swap data c (hi - 1), c + 1, 1)
    else (data, c, 0)
  let s2 : Nat × Nat :=
    if !sort.Less less s1.1 (b - 1) pivot then (b - 1, s1.2.2 + 1) else (b, s1.2.2)
  if !sort.Less less s1.1 m pivot then
    (sort.Swap s1.1 m (s2.1 - 1), s2.1 - 1, s1.2.1, s2.2 + 1)
  else (s1.1, s2.1, s1.2.1, s2.2)

/-- The choice of the pivot at the head of `doPivot_func`: for more than 40
elements Tukey's ninther, then the median of three moved to `lo`. -/
def sort.doPivot_choose {α : Type} (less : α → α → Bool) (data : sort.Mem α) (lo hi : Nat) :
    sort.Mem α :=
  sort.medianOfThree_func less
    (if hi - lo > 40 then
      sort.medianOfThree_func less
        (sort.medianOfThree_func less
          (sort.medianOfThree_func less data lo (lo + (hi - lo) / 8) (lo + 2 * ((hi - lo) / 8)))
          ((lo + hi) / 2) ((lo + hi) / 2 - (hi - lo) / 8) ((lo + hi) / 2 + (hi - lo) / 8))
        (hi - 1) (hi - 1 - (hi - lo) / 8) (hi - 1 - 2 * ((hi - lo) / 8))
    else data)
    lo ((lo + hi) / 2) (hi - 1)

/-- The routine `doPivot_func(data, lo, hi)`: the new `data`, `midlo` and
`midhi`. The pair `p` is the state after the partition loop, `d` the state
after the three tests for duplicates (run when `protect` is false and
`hi - c < (hi - lo) / 4`), and `q` the state after the loop that runs when
`protect` holds, that is when `hi - c < 5` or `dups > 1`. -/
def sort.doPivot_func {α : Type} (less : α → α → Bool) (data : sort.Mem α) (lo hi : Nat) :
    sort.Mem α × Nat × Nat :=
  let data1 := sort.doPivot_choose less data lo hi
  let a := sort.scanUp (fun i => sort.Less less data1 i lo) (hi - 1 - (lo + 1)) (lo + 1)
  let p := sort.doPivot_partition less lo (hi - 1 - a) data1 a (hi - 1)
  let d :=
    if !decide (hi - p.2.2 < 5) && decide (hi - p.2.2 < (hi - lo) / 4) then
      sort.doPivot_dups less p.1 lo ((lo + hi) / 2) hi p.2.1 p.2.2
    else (p.1, p.2.1, p.2.2, 0)
  let q :=
    if decide (hi - p.2.2 < 5) || decide (d.2.2.2 > 1) then
      sort.doPivot_protect less lo (d.2.1 - a) d.1 a d.2.1
    else (d.1, a, d.2.1)
  (sort.Swap q.1 lo (q.2.2 - 1), q.2.2 - 1, d.2.2.1)

/-- The loop `for i := a + 6; i < b; i++` of `quickSort_func` with body
`if data.Less(i, i-6) then data.Swap(i, i-6)`; the counter is `b - i`. -/
def sort.quickSort_shell {α : Type} (less : α → α → Bool) : Nat → Nat → sort.Mem α → sort.Mem α
  | 0, _, data => data
  | n + 1, i, data => sort.quickSort_shell less n (i + 1) (sort.swapIfLess less data i (i - 6))

/-- The tail of `quickSort_func` for at most 12 elements: for more than one
element the shell pass with gap 6, then `insertionSort_func`. -/
def sort.quickSort_small {α : Type} (less : α → α → Bool) (data : sort.Mem α) (a b : Nat) :
    sort.Mem α :=
  if b - a > 1 then
    sort.insertionSort_func less (sort.quickSort_shell less (b - (a + 6)) (a + 6) data) a b
  else data

/-- The routine `quickSort_func(data, a, b, maxDepth)` of the `sort` package
of Go 1.8 to 1.18. Its loop `for b-a > 12` decrements `maxDepth` in every
turn, so one turn is one level of the recursion on `maxDepth`. -/
def sort.quickSort_func {α : Type} (less : α → α → Bool) :
    Nat → sort.Mem α → Nat → Nat → sort.Mem α
  | 0, data, a, b =>
    if b - a > 12 then sort.heapSort_func less data a b
    else sort.quickSort_small less data a b
  | maxDepth + 1, data, a, b =>
    if b - a > 12 then
      let p := sort.doPivot_func less data a b
      if p.2.1 - a < b - p.2.2 then
        sort.quickSort_func less maxDepth (sort.quickSort_func less maxDepth p.1 a p.2.1) p.2.2 b
      else
        sort.quickSort_func less maxDepth (sort.quickSort_func less maxDepth p.1 p.2.2 b) a p.2.1
    else sort.quickSort_small less data a b

/-- The loop of `maxDepth(n)`, `for i := n; i > 0; i >>= 1` with body
`depth++`; the counter bounds `i`. -/
def sort.maxDepth_loop : Nat → Nat → Nat → Nat
  | 0, _, depth => depth
  | n + 1, i, depth => if i > 0 then sort.maxDepth_loop n (i / 2) (depth + 1) else depth

/-- The function `maxDepth(n)`: twice the number of binary digits of `n`. -/
def sort.maxDepth (n : Nat) : Nat :=
  sort.maxDepth_loop n n 0 * 2

/-- The function `sort.Slice(x, less)` of Go 1.8 to 1.18, with `less` read
on the elements found at the two indices:
`quickSort_func(data, 0, length, maxDepth(length))` on the backing array. -/
def sort.Slice {α : Type} (less : α → α → Bool) (x : List α) : List α :=
  match x with
  | [] => []
  | x0 :: _ =>
    (List.range x.length).map
      (sort.quickSort_func less (sort.maxDepth x.length) ⟨fun i => x.getD i x0⟩ 0 x.length).get

/-! ## What the sort is shown to achieve -/

/-- What is assumed of the closure `less` when sortedness is proved: it
agrees with a transitive relation `R` in the sense that a true answer gives
`R x y` and a false answer gives `R y x`. Both a strict `<` and a non-strict
`<=` on a linearly ordered key agree with `<=` on the key. -/
structure sort.Agrees {α : Type} (less : α → α → Bool) (R : α → α → Prop) : Prop where
  trans : ∀ x y z, R x y → R y z → R x z
  of_true : ∀ x y, less x y = true → R x y
  of_false : ∀ x y, less x y = false → R y x

/-- The array `d'` holds the elements of `d` rearranged within the index
range from `a` up to `b`, every other index keeping its element. -/
def sort.Permutes {α : Type} (a b : Nat) (d d' : sort.Mem α) : Prop :=
  ∃ σ : Equiv.Perm Nat, (∀ i, (i < a ∨ b ≤ i) → σ i = i) ∧ ∀ i, d'.get i = d.get (σ i)

/-- The elements of `d` at the indices from `a` up to `b` are in `R`-order. -/
def sort.SortedOn {α : Type} (R : α → α → Prop) (d : sort.Mem α) (a b : Nat) : Prop :=
  ∀ i j, a ≤ i → i < j → j < b → R (d.get i) (d.get j)

/-- The heap condition at node `i` of the heap stored from index `first` with
`hi` nodes: neither child is `R`-above the node. -/
def sort.HeapAt {α : Type} (R : α → α → Prop) (d : sort.Mem α) (first hi i : Nat) : Prop :=
  (2 * i + 1 < hi → R (d.get (first + (2 * i + 1))) (d.get (first + i))) ∧
  (2 * i + 2 < hi → R (d.get (first + (2 * i + 2))) (d.get (first + i)))

/-- The state of `doPivot_func` around the pivot value `pv` kept at index
`lo`: the elements after `lo` and before `b` are `R`-below `pv`, those from
`b` up to `c` are `R`-equivalent to it, those from `c` up to `hi` are
`R`-above it. -/
def sort.Partitioned {α : Type} (R : α → α → Prop) (d : sort.Mem α) (lo hi b c : Nat)
    (pv : α) : Prop :=
  d.get lo = pv ∧
  (∀ x, lo < x → x < b → R (d.get x) pv) ∧
  (∀ x, b ≤ x → x < c → R (d.get x) pv ∧ R pv (d.get x)) ∧
  (∀ x, c ≤ x → x < hi → R pv (d.get x))

/-! ## Helpers of the repository that live outside `roles.go` -/

/-- Modelled from the spec: `sliceutil.HasString` is declared in package
`sliceutil`, outside the file. The spec reads the `Name` condition as
"pass iff record.name is a member of the resulting set". -/
def sliceutil.HasString (slice : List String) (str : String) : Bool :=
  slice.contains str

/-- Modelled from the spec: `v1alpha2.SearchFuzzy` is declared in package
`v1alpha2`, outside the file. The spec: "when targetKey is empty, true iff
ANY entry's value contains targetValue as substring; when targetKey is
non-empty, true iff there exists an entry whose key contains targetKey and
whose value contains targetValue". -/
def v1alpha2.SearchFuzzy (m : GoMap) (key value : String) : Bool :=
  if key = "" then m.any (fun e => strings.Contains e.2 value)
  else m.any (fun e => strings.Contains e.1 key && strings.Contains e.2 value)

/-! ## The functions of `roles.go` -/

/-- The function `isUserFacingRole`. -/
def isUserFacingRole (K : Consts) (role : Role) : Bool :=
  if role.Annotations.index K.CreatorAnnotationKey ≠ "" then true else false

/-- The method `roleSearcher.match`: one turn of the `range` loop per entry,
the `switch` read as a chain of tests in the order of its cases. -/
def roleSearcher.match (K : Consts) : GoMap → Role → Bool
  | [], _ => true
  | (k, v) :: rest, item =>
    if k = K.Name then
      if !sliceutil.HasString (strings.Split v '|') item.Name then false
      else roleSearcher.match K rest item
    else if k = K.Keyword then
      if !strings.Contains item.Name v && !v1alpha2.SearchFuzzy item.Labels "" v
          && !v1alpha2.SearchFuzzy item.Annotations "" v then false
      else roleSearcher.match K rest item
    else if k = K.UserFacing then
      if v = "true" then
        if !isUserFacingRole K item then false
        else roleSearcher.match K rest item
      else roleSearcher.match K rest item
    else
      match item.Labels.lookup k with
      | none => false
      | some val => if val ≠ v then false else roleSearcher.match K rest item

/-- The method `roleSearcher.fuzzy`. -/
def roleSearcher.fuzzy (K : Consts) : GoMap → Role → Bool
  | [], _ => true
  | (k, v) :: rest, item =>
    if k = K.Name then
      if !strings.Contains item.Name v
          && !strings.Contains (item.Annotations.index K.DisplayNameAnnotationKey) v then false
      else roleSearcher.fuzzy K rest item
    else if k = K.Label then
      if !v1alpha2.SearchFuzzy item.Labels "" v then false
      else roleSearcher.fuzzy K rest item
    else if k = K.Annotation then
      if !v1alpha2.SearchFuzzy item.Annotations "" v then false
      else false
    else
      if !v1alpha2.SearchFuzzy item.Labels k v then false
      else roleSearcher.fuzzy K rest item

/-- The method `roleSearcher.compare`. -/
def roleSearcher.compare (K : Consts) (a b : Role) (orderBy : String) : Bool :=
  if orderBy = K.CreateTime then decide (a.CreationTimestamp < b.CreationTimestamp)
  else decide (strings.Compare a.Name b.Name ≤ 0)

/-- The closure handed to `sort.Slice` in `Search`: with `reverse` the two
positions are exchanged before `compare` is called. -/
def roleSearcher.less (K : Consts) (orderBy : String) (reverse : Bool) (x y : Role) : Bool :=
  if reverse then roleSearcher.compare K y x orderBy else roleSearcher.compare K x y orderBy

/-- The records that `Search` keeps before sorting. -/
def roleSearcher.retained (K : Consts) (conditions : Conditions) (roles : List Role) : List Role :=
  if conditions.Match.length = 0 ∧ conditions.Fuzzy.length = 0 then roles
  else roles.filter
    (fun item => roleSearcher.match K conditions.Match item && roleSearcher.fuzzy K conditions.Fuzzy item)

/-- The method `roleSearcher.Search`. -/
def roleSearcher.Search (K : Consts) (s : roleSearcher) (ns : String) (conditions : Conditions)
    (orderBy : String) (reverse : Bool) : Except GoError (List Role) :=
  match s.informers ns with
  | .error err => .error err
  | .ok roles =>
    .ok (sort.Slice (roleSearcher.less K orderBy reverse) (roleSearcher.retained K conditions roles))

/-! ## Worked examples -/

/-- Scenario record `b`, created at instant 1. -/
def roleB : Role := ⟨"b", [], [], 1⟩

/-- Scenario record `a`, created at instant 2. -/
def roleA : Role := ⟨"a", [], [], 2⟩

/-- A store whose lister returns the two scenario records in every namespace. -/
def storeBA : roleSearcher := ⟨fun _ => .ok [roleB, roleA]⟩

/-- The empty conditions. -/
def noConditions : Conditions := ⟨[], []⟩

/-! ## The per-key tests and the variant of `Search` that the specification speaks of -/

/-- The per-key test of an exact-match condition in the words of the
specification: `Name` asks for membership among the pieces of the value,
`Keyword` for the name or a label or an annotation to contain the value, the
user-facing key filters by `isUserFacingRole` for the value `true` only, and
any other key asks for the label of that key to be present and equal. -/
def matchTest (K : Consts) (k v : String) (r : Role) : Bool :=
  if k = K.Name then decide (r.Name ∈ strings.Split v '|')
  else if k = K.Keyword then
    strings.Contains r.Name v || v1alpha2.SearchFuzzy r.Labels "" v
      || v1alpha2.SearchFuzzy r.Annotations "" v
  else if k = K.UserFacing then (if v = "true" then isUserFacingRole K r else true)
  else decide (r.Labels.lookup k = some v)

/-- The per-key test of a fuzzy condition whose key is not `Annotation`, in
the words of the specification: `Name` asks for the name or the display-name
annotation to contain the value, `Label` searches the labels with the empty
target key, any other key searches the labels with the condition key as the
target key. -/
def fuzzyTest (K : Consts) (k v : String) (r : Role) : Bool :=
  if k = K.Name then
    strings.Contains r.Name v
      || strings.Contains (r.Annotations.index K.DisplayNameAnnotationKey) v
  else if k = K.Label then v1alpha2.SearchFuzzy r.Labels "" v
  else v1alpha2.SearchFuzzy r.Labels k v

/-- One turn of the `range` loop of `roleSearcher.fuzzy`: whether the loop
goes on after the entry `k: v` (the `Annotation` case always returns). -/
def roleSearcher.fuzzyEntry (K : Consts) (k v : String) (item : Role) : Bool :=
  if k = K.Name then
    strings.Contains item.Name v
      || strings.Contains (item.Annotations.index K.DisplayNameAnnotationKey) v
  else if k = K.Label then v1alpha2.SearchFuzzy item.Labels "" v
  else if k = K.Annotation then false
  else v1alpha2.SearchFuzzy item.Labels k v

/-- The variant of `Search` without the short-circuit for empty conditions:
the filter loop over `match` and `fuzzy` always runs. -/
def roleSearcher.SearchAlwaysFilter (K : Consts) (s : roleSearcher) (ns : String)
    (conditions : Conditions) (orderBy : String) (reverse : Bool) : Except GoError (List Role) :=
  match s.informers ns with
  | .error err => .error err
  | .ok roles =>
    .ok (sort.Slice (roleSearcher.less K orderBy reverse)
      (roles.filter (fun item =>
        roleSearcher.match K conditions.Match item && roleSearcher.fuzzy K conditions.Fuzzy item)))

/-- Whether two records tie on the ordering key that `compare` reads for a
given `orderBy`: the creation timestamp for `CreateTime`, the name otherwise. -/
def roleSearcher.sameKey (K : Consts) (orderBy : String) (a b : Role) : Bool :=
  if orderBy = K.CreateTime then decide (a.CreationTimestamp = b.CreationTimestamp)
  else decide (a.Name = b.Name)

/-- A record that carries the creator annotation with the empty value. -/
def roleEmptyCreator : Role := ⟨"r", [], [("kubesphere.io/creator", "")], 0⟩

/-! ## The library string comparison -/

theorem strings.compareChars_le_iff_not_lt (as bs : List Char) :
    strings.compareChars as bs ≤ 0 ↔ ¬ bs < as := by
  induction as generalizing bs with
  | nil =>
    cases bs with
    | nil => simp [strings.compareChars]
    | cons b bs => simp [strings.compareChars]
  | cons a as ih =>
    cases bs with
    | nil => simpa [strings.compareChars] using List.nil_lt_cons a as
    | cons b bs =>
      unfold strings.compareChars
      by_cases h1 : a.toNat < b.toNat
      · have hab : a < b := h1
        simp only [h1, if_true]
        refine iff_of_true (by decide) ?_
        have hlt : a :: as < b :: bs := List.Lex.rel hab
        exact not_lt_of_lt hlt
      · by_cases h2 : b.toNat < a.toNat
        · have hba : b < a := h2
          simp only [h1, h2, if_false, if_true]
          refine iff_of_false (by decide) ?_
          have hlt : b :: bs < a :: as := List.Lex.rel hba
          exact not_not_intro hlt
        · simp only [h1, h2, if_false]
          rw [ih]
          have hab : a = b := by
            apply Char.ext; apply UInt32.ext
            exact Nat.le_antisymm (Nat.le_of_not_lt h2) (Nat.le_of_not_lt h1)
          subst hab
          constructor
          · intro h hlt
            rcases hlt with _ | hlt | hlt
            · exact h hlt
            · exact lt_irrefl _ hlt
          · intro h hlt
            exact h (List.Lex.cons hlt)

theorem strings.Compare_le_iff (a b : String) : strings.Compare a b ≤ 0 ↔ a ≤ b := by
  rw [String.le_iff_toList_le]
  exact (strings.compareChars_le_iff_not_lt a.data b.data).trans not_lt

/-! ## The library sort: rearrangements within a range -/

theorem sort.Swap_get {α : Type} (d : sort.Mem α) (i j k : Nat) :
    (sort.Swap d i j).get k = if k = i then d.get j else if k = j then d.get i else d.get k :=
  rfl

theorem sort.Swap_get_left {α : Type} (d : sort.Mem α) (i j : Nat) :
    (sort.Swap d i j).get i = d.get j := by
  rw [sort.Swap_get, if_pos rfl]

theorem sort.Swap_get_right {α : Type} (d : sort.Mem α) (i j : Nat) :
    (sort.Swap d i j).get j = d.get i := by
  rw [sort.Swap_get]
  split
  · rename_i h
    rw [h]
  · rw [if_pos rfl]

theorem sort.Swap_get_other {α : Type} (d : sort.Mem α) (i j k : Nat) (hi : k ≠ i) (hj : k ≠ j) :
    (sort.Swap d i j).get k = d.get k := by
  rw [sort.Swap_get, if_neg hi, if_neg hj]

theorem sort.Permutes.refl {α : Type} (a b : Nat) (d : sort.Mem α) : sort.Permutes a b d d :=
  ⟨Equiv.refl Nat, fun _ _ => rfl, fun _ => rfl⟩

theorem sort.Permutes.trans {α : Type} {a b : Nat} {d₁ d₂ d₃ : sort.Mem α}
    (h₁ : sort.Permutes a b d₁ d₂) (h₂ : sort.Permutes a b d₂ d₃) : sort.Permutes a b d₁ d₃ := by
  obtain ⟨σ₁, hfix₁, hget₁⟩ := h₁
  obtain ⟨σ₂, hfix₂, hget₂⟩ := h₂
  refine ⟨σ₂.trans σ₁, ?_, ?_⟩
  · intro i hi
    simp only [Equiv.trans_apply]
    rw [hfix₂ i hi, hfix₁ i hi]
  · intro i
    simp only [Equiv.trans_apply]
    rw [hget₂, hget₁]

theorem sort.Permutes.mono {α : Type} {a b a' b' : Nat} {d d' : sort.Mem α}
    (h : sort.Permutes a b d d') (ha : a' ≤ a) (hb : b ≤ b') : sort.Permutes a' b' d d' := by
  obtain ⟨σ, hfix, hget⟩ := h
  refine ⟨σ, ?_, hget⟩
  intro i hi
  apply hfix
  omega

theorem sort.Permutes.swap {α : Type} (a b : Nat) (d : sort.Mem α) (i j : Nat)
    (hi : a ≤ i ∧ i < b) (hj : a ≤ j ∧ j < b) : sort.Permutes a b d (sort.Swap d i j) := by
  refine ⟨Equiv.swap i j, ?_, ?_⟩
  · intro k hk
    apply Equiv.swap_apply_of_ne_of_ne <;> omega
  · intro k
    rw [sort.Swap_get, Equiv.swap_apply_def]
    split
    · rfl
    · split <;> rfl

theorem sort.Permutes.get_outside {α : Type} {a b : Nat} {d d' : sort.Mem α}
    (h : sort.Permutes a b d d') (i : Nat) (hi : i < a ∨ b ≤ i) : d'.get i = d.get i := by
  obtain ⟨σ, hfix, hget⟩ := h
  rw [hget, hfix i hi]

theorem sort.Permutes.get_inside {α : Type} {a b : Nat} {d d' : sort.Mem α}
    (h : sort.Permutes a b d d') (i : Nat) (hi : a ≤ i ∧ i < b) :
    ∃ j, (a ≤ j ∧ j < b) ∧ d'.get i = d.get j := by
  obtain ⟨σ, hfix, hget⟩ := h
  refine ⟨σ i, ?_, hget i⟩
  by_contra hout
  have hfixed : σ (σ i) = σ i := hfix (σ i) (by omega)
  have : σ i = i := σ.injective hfixed
  omega

/-- A property of all elements of a range is kept by a rearrangement of the
range. -/
theorem sort.Permutes.forall_inside {α : Type} {a b : Nat} {d d' : sort.Mem α}
    (h : sort.Permutes a b d d') (P : α → Prop) (hP : ∀ i, a ≤ i → i < b → P (d.get i)) :
    ∀ i, a ≤ i → i < b → P (d'.get i) := by
  intro i hai hib
  obtain ⟨j, hj, hij⟩ := h.get_inside i ⟨hai, hib⟩
  rw [hij]
  exact hP j hj.1 hj.2

theorem sort.Permutes.swapIfLess {α : Type} (less : α → α → Bool) (a b : Nat) (d : sort.Mem α)
    (i j : Nat) (hi : a ≤ i ∧ i < b) (hj : a ≤ j ∧ j < b) :
    sort.Permutes a b d (sort.swapIfLess less d i j) := by
  unfold sort.swapIfLess
  split
  · exact sort.Permutes.swap a b d i j hi hj
  · exact sort.Permutes.refl a b d

/-- The list read off a rearranged array is a permutation of the list read
off the array. -/
theorem sort.Permutes.perm_map_range {α : Type} {n : Nat} {d d' : sort.Mem α}
    (h : sort.Permutes 0 n d d') :
    ((List.range n).map d'.get).Perm ((List.range n).map d.get) := by
  obtain ⟨σ, hfix, hget⟩ := h
  have hmap : (List.range n).map d'.get = ((List.range n).map σ).map d.get := by
    rw [List.map_map]
    exact List.map_congr_left (fun i _ => hget i)
  rw [hmap]
  apply List.Perm.map
  rw [List.perm_ext_iff_of_nodup ((List.nodup_range n).map σ.injective) (List.nodup_range n)]
  intro x
  simp only [List.mem_map, List.mem_range]
  constructor
  · rintro ⟨i, hi, rfl⟩
    by_contra hout
    have hfixed : σ (σ i) = σ i := hfix (σ i) (by omega)
    have : σ i = i := σ.injective hfixed
    omega
  · intro hx
    refine ⟨σ.symm x, ?_, by simp⟩
    by_contra hout
    have hfixed : σ (σ.symm x) = σ.symm x := hfix (σ.symm x) (by omega)
    rw [Equiv.apply_symm_apply] at hfixed
    omega

/-! ## The library sort: insertion sort and the shell pass -/

theorem sort.insertionSort_inner_spec {α : Type} {less : α → α → Bool} {R : α → α → Prop}
    (hA : sort.Agrees less R) (a i : Nat) :
    ∀ (k : Nat) (d : sort.Mem α), a + k ≤ i →
      (∀ p q, a ≤ p → p < q → q ≤ i → p ≠ a + k → q ≠ a + k → R (d.get p) (d.get q)) →
      (∀ q, a + k < q → q ≤ i → R (d.get (a + k)) (d.get q)) →
      sort.Permutes a (i + 1) d (sort.insertionSort_inner less a k d) ∧
        sort.SortedOn R (sort.insertionSort_inner less a k d) a (i + 1) := by
  intro k
  induction k with
  | zero =>
    intro d _ hinv hright
    refine ⟨sort.Permutes.refl _ _ _, ?_⟩
    intro p q hap hpq hqi
    by_cases hp : p = a
    · subst hp
      exact hright q (by omega) (by omega)
    · exact hinv p q hap hpq (by omega) (by omega) (by omega)
  | succ k ih =>
    intro d hki hinv hright
    unfold sort.insertionSort_inner
    by_cases hless : sort.Less less d (a + k + 1) (a + k) = true
    · rw [if_pos hless]
      have hR : R (d.get (a + k + 1)) (d.get (a + k)) := hA.of_true _ _ hless
      have hstep := ih (sort.Swap d (a + k + 1) (a + k)) (by omega) ?_ ?_
      · exact ⟨(sort.Permutes.swap a (i + 1) d (a + k + 1) (a + k) (by omega) (by omega)).trans
          hstep.1, hstep.2⟩
      · intro p q hap hpq hqi hp hq
        by_cases hp1 : p = a + k + 1
        · subst hp1
          rw [sort.Swap_get_left, sort.Swap_get_other d _ _ q (by omega) (by omega)]
          exact hinv (a + k) q (by omega) (by omega) hqi (by omega) (by omega)
        · rw [sort.Swap_get_other d _ _ p hp1 hp]
          by_cases hq1 : q = a + k + 1
          · subst hq1
            rw [sort.Swap_get_left]
            exact hinv p (a + k) hap (by omega) (by omega) (by omega) (by omega)
          · rw [sort.Swap_get_other d _ _ q hq1 hq]
            exact hinv p q hap hpq hqi (by omega) (by omega)
      · intro q hq hqi
        rw [sort.Swap_get_right]
        by_cases hq1 : q = a + k + 1
        · subst hq1
          rw [sort.Swap_get_left]
          exact hR
        · rw [sort.Swap_get_other d _ _ q hq1 (by omega)]
          exact hright q (by omega) hqi
    · rw [if_neg hless]
      have hR : R (d.get (a + k)) (d.get (a + k + 1)) :=
        hA.of_false _ _ (by simpa [sort.Less] using hless)
      refine ⟨sort.Permutes.refl _ _ _, ?_⟩
      intro p q hap hpq hqi
      by_cases hp1 : p = a + k + 1
      · subst hp1
        exact hright q (by omega) (by omega)
      · by_cases hq1 : q = a + k + 1
        · subst hq1
          by_cases hp2 : p = a + k
          · subst hp2
            exact hR
          · exact hA.trans _ _ _
              (hinv p (a + k) hap (by omega) (by omega) (by omega) (by omega)) hR
        · exact hinv p q hap hpq (by omega) (by omega) (by omega)

theorem sort.insertionSort_outer_spec {α : Type} {less : α → α → Bool} {R : α → α → Prop}
    (hA : sort.Agrees less R) (a : Nat) :
    ∀ (n i : Nat) (d : sort.Mem α), a + 1 ≤ i → sort.SortedOn R d a i →
      sort.Permutes a (i + n) d (sort.insertionSort_outer less a n i d) ∧
        sort.SortedOn R (sort.insertionSort_outer less a n i d) a (i + n) := by
  intro n
  induction n with
  | zero =>
    intro i d _ hs
    exact ⟨sort.Permutes.refl _ _ _, hs⟩
  | succ n ih =>
    intro i d hai hs
    unfold sort.insertionSort_outer
    have hk : a + (i - a) = i := by omega
    have hin := sort.insertionSort_inner_spec hA a i (i - a) d (by omega)
      (by
        intro p q hap hpq hqi hp hq
        exact hs p q hap hpq (by omega))
      (by
        intro q hq hqi
        omega)
    have hout := ih (i + 1) (sort.insertionSort_inner less a (i - a) d) (by omega) hin.2
    have heq : i + 1 + n = i + (n + 1) := by omega
    rw [heq] at hout
    exact ⟨(hin.1.mono (le_refl a) (by omega)).trans hout.1, hout.2⟩

theorem sort.insertionSort_func_spec {α : Type} {less : α → α → Bool} {R : α → α → Prop}
    (hA : sort.Agrees less R) (d : sort.Mem α) (a b : Nat) :
    sort.Permutes a b d (sort.insertionSort_func less d a b) ∧
      sort.SortedOn R (sort.insertionSort_func less d a b) a b := by
  unfold sort.insertionSort_func
  by_cases hab : a + 1 ≤ b
  · have h := sort.insertionSort_outer_spec hA a (b - (a + 1)) (a + 1) d (le_refl _)
      (by
        intro p q hap hpq hq
        omega)
    have heq : a + 1 + (b - (a + 1)) = b := by omega
    rw [heq] at h
    exact h
  · have hz : b - (a + 1) = 0 := by omega
    rw [hz]
    refine ⟨sort.Permutes.refl _ _ _, ?_⟩
    intro p q hap hpq hq
    omega

theorem sort.quickSort_shell_permutes {α : Type} (less : α → α → Bool) (a b : Nat) :
    ∀ (n i : Nat) (d : sort.Mem α), a + 6 ≤ i → i + n ≤ b →
      sort.Permutes a b d (sort.quickSort_shell less n i d) := by
  intro n
  induction n with
  | zero =>
    intro i d _ _
    exact sort.Permutes.refl _ _ _
  | succ n ih =>
    intro i d hai hib
    unfold sort.quickSort_shell
    exact (sort.Permutes.swapIfLess less a b d i (i - 6) (by omega) (by omega)).trans
      (ih (i + 1) _ (by omega) (by omega))

theorem sort.quickSort_small_spec {α : Type} {less : α → α → Bool} {R : α → α → Prop}
    (hA : sort.Agrees less R) (d : sort.Mem α) (a b : Nat) :
    sort.Permutes a b d (sort.quickSort_small less d a b) ∧
      sort.SortedOn R (sort.quickSort_small less d a b) a b := by
  unfold sort.quickSort_small
  split
  · have hshell : sort.Permutes a b d (sort.quickSort_shell less (b - (a + 6)) (a + 6) d) := by
      by_cases h6 : a + 6 ≤ b
      · exact sort.quickSort_shell_permutes less a b _ _ d (le_refl _) (by omega)
      · have hz : b - (a + 6) = 0 := by omega
        rw [hz]
        exact sort.Permutes.refl _ _ _
    have hins := sort.insertionSort_func_spec hA
      (sort.quickSort_shell less (b - (a + 6)) (a + 6) d) a b
    exact ⟨hshell.trans hins.1, hins.2⟩
  · refine ⟨sort.Permutes.refl _ _ _, ?_⟩
    intro p q hap hpq hq
    omega

/-! ## The library sort: heap sort -/

theorem sort.Agrees.rel_self {α : Type} {less : α → α → Bool} {R : α → α → Prop}
    (hA : sort.Agrees less R) (x : α) : R x x := by
  cases h : less x x with
  | true => exact hA.of_true x x h
  | false => exact hA.of_false x x h

theorem sort.siftDown_child_spec {α : Type} {less : α → α → Bool} {R : α → α → Prop}
    (hA : sort.Agrees less R) (d : sort.Mem α) (hi first root : Nat) (h : 2 * root + 1 < hi) :
    (sort.siftDown_child less d hi first root = 2 * root + 1 ∨
      sort.siftDown_child less d hi first root = 2 * root + 2) ∧
    sort.siftDown_child less d hi first root < hi ∧
    R (d.get (first + (2 * root + 1))) (d.get (first + sort.siftDown_child less d hi first root)) ∧
    (2 * root + 2 < hi →
      R (d.get (first + (2 * root + 2)))
        (d.get (first + sort.siftDown_child less d hi first root))) := by
  unfold sort.siftDown_child
  split
  · rename_i hcond
    rw [Bool.and_eq_true, decide_eq_true_eq] at hcond
    exact ⟨Or.inr rfl, hcond.1, hA.of_true _ _ hcond.2, fun _ => hA.rel_self _⟩
  · rename_i hcond
    refine ⟨Or.inl rfl, h, hA.rel_self _, fun h3 => ?_⟩
    cases hl : sort.Less less d (first + (2 * root + 1)) (first + (2 * root + 1) + 1) with
    | true =>
      exact absurd (by rw [Bool.and_eq_true, decide_eq_true_eq]; exact ⟨h3, hl⟩) hcond
    | false => exact hA.of_false _ _ hl

theorem sort.siftDown_loop_spec {α : Type} {less : α → α → Bool} {R : α → α → Prop}
    (hA : sort.Agrees less R) (hi first i0 : Nat) :
    ∀ (fuel root : Nat) (d : sort.Mem α), i0 ≤ root → hi ≤ root + fuel →
      (∀ j, i0 ≤ j → j ≠ root → sort.HeapAt R d first hi j) →
      (∀ j, i0 ≤ j → (root = 2 * j + 1 ∨ root = 2 * j + 2) →
        (2 * root + 1 < hi → R (d.get (first + (2 * root + 1))) (d.get (first + j))) ∧
        (2 * root + 2 < hi → R (d.get (first + (2 * root + 2))) (d.get (first + j)))) →
      sort.Permutes (first + i0) (first + hi) d (sort.siftDown_loop less hi first fuel root d) ∧
        ∀ j, i0 ≤ j → sort.HeapAt R (sort.siftDown_loop less hi first fuel root d) first hi j := by
  intro fuel
  induction fuel with
  | zero =>
    intro root d _ hfuel hheap _
    refine ⟨sort.Permutes.refl _ _ _, ?_⟩
    intro j hj
    by_cases hjr : j = root
    · subst hjr
      exact ⟨fun h => absurd h (by omega), fun h => absurd h (by omega)⟩
    · exact hheap j hj hjr
  | succ fuel ih =>
    intro root d hroot hfuel hheap hparent
    unfold sort.siftDown_loop
    by_cases hleaf : 2 * root + 1 ≥ hi
    · rw [if_pos hleaf]
      refine ⟨sort.Permutes.refl _ _ _, ?_⟩
      intro j hj
      by_cases hjr : j = root
      · subst hjr
        exact ⟨fun h => absurd h (by omega), fun h => absurd h (by omega)⟩
      · exact hheap j hj hjr
    · rw [if_neg hleaf]
      obtain ⟨hc, hchi, hc1, hc2⟩ := sort.siftDown_child_spec hA d hi first root (by omega)
      generalize sort.siftDown_child less d hi first root = c at hc hchi hc1 hc2 ⊢
      cases hl : sort.Less less d (first + root) (first + c) with
      | false =>
        simp only [Bool.not_false, if_true]
        have hR : R (d.get (first + c)) (d.get (first + root)) := hA.of_false _ _ hl
        refine ⟨sort.Permutes.refl _ _ _, ?_⟩
        intro j hj
        by_cases hjr : j = root
        · subst hjr
          exact ⟨fun _ => hA.trans _ _ _ hc1 hR, fun h => hA.trans _ _ _ (hc2 h) hR⟩
        · exact hheap j hj hjr
      | true =>
        simp only [Bool.not_true, Bool.false_eq_true, if_false]
        have hR : R (d.get (first + root)) (d.get (first + c)) := hA.of_true _ _ hl
        have hstep := ih c (sort.Swap d (first + root) (first + c)) (by omega) (by omega) ?_ ?_
        · exact ⟨(sort.Permutes.swap _ _ d _ _ (by omega) (by omega)).trans hstep.1, hstep.2⟩
        · intro j hj hjc
          by_cases hjr : j = root
          · subst hjr
            rw [sort.HeapAt, sort.Swap_get_left]
            constructor
            · intro h1
              by_cases hc' : c = 2 * j + 1
              · rw [← hc', sort.Swap_get_right]
                exact hR
              · rw [sort.Swap_get_other d _ _ _ (by omega) (by omega)]
                exact hc1
            · intro h2
              by_cases hc' : c = 2 * j + 2
              · rw [← hc', sort.Swap_get_right]
                exact hR
              · rw [sort.Swap_get_other d _ _ _ (by omega) (by omega)]
                exact hc2 h2
          · rw [sort.HeapAt, sort.Swap_get_other d _ _ (first + j) (by omega) (by omega)]
            constructor
            · intro h1
              by_cases hx : 2 * j + 1 = root
              · rw [hx, sort.Swap_get_left]
                have hp := hparent j hj (Or.inl hx.symm)
                rcases hc with hc | hc
                · rw [hc]; exact hp.1 (by omega)
                · rw [hc]; exact hp.2 (by omega)
              · rw [sort.Swap_get_other d _ _ _ (by omega) (by omega)]
                exact (hheap j hj hjr).1 h1
            · intro h2
              by_cases hx : 2 * j + 2 = root
              · rw [hx, sort.Swap_get_left]
                have hp := hparent j hj (Or.inr hx.symm)
                rcases hc with hc | hc
                · rw [hc]; exact hp.1 (by omega)
                · rw [hc]; exact hp.2 (by omega)
              · rw [sort.Swap_get_other d _ _ _ (by omega) (by omega)]
                exact (hheap j hj hjr).2 h2
        · intro j hj hjc
          have hjr : j = root := by omega
          subst hjr
          rw [sort.Swap_get_left]
          have hh := hheap c (by omega) (by omega)
          constructor
          · intro h1
            rw [sort.Swap_get_other d _ _ _ (by omega) (by omega)]
            exact hh.1 h1
          · intro h2
            rw [sort.Swap_get_other d _ _ _ (by omega) (by omega)]
            exact hh.2 h2

theorem sort.heapSort_build_spec {α : Type} {less : α → α → Bool} {R : α → α → Prop}
    (hA : sort.Agrees less R) (hi first : Nat) :
    ∀ (cnt : Nat) (d : sort.Mem α), (∀ j, cnt ≤ j → sort.HeapAt R d first hi j) →
      sort.Permutes first (first + hi) d (sort.heapSort_build less hi first cnt d) ∧
        ∀ j, sort.HeapAt R (sort.heapSort_build less hi first cnt d) first hi j := by
  intro cnt
  induction cnt with
  | zero =>
    intro d h
    exact ⟨sort.Permutes.refl _ _ _, fun j => h j (Nat.zero_le j)⟩
  | succ i ih =>
    intro d h
    unfold sort.heapSort_build sort.siftDown_func
    have hs := sort.siftDown_loop_spec hA hi first i hi i d (le_refl i) (by omega)
      (fun j hj hji => h j (by omega))
      (fun j hj hji => absurd hji (by omega))
    have hb := ih (sort.siftDown_loop less hi first hi i d) hs.2
    exact ⟨(hs.1.mono (by omega) (le_refl _)).trans hb.1, hb.2⟩

theorem sort.heap_root_max {α : Type} {less : α → α → Bool} {R : α → α → Prop}
    (hA : sort.Agrees less R) (d : sort.Mem α) (first cnt : Nat)
    (hheap : ∀ j, sort.HeapAt R d first cnt j) :
    ∀ p, p < cnt → R (d.get (first + p)) (d.get (first + 0)) := by
  intro p
  induction p using Nat.strong_induction_on with
  | _ p ih =>
    intro hp
    by_cases hp0 : p = 0
    · subst hp0
      exact hA.rel_self _
    · have hpar : p = 2 * ((p - 1) / 2) + 1 ∨ p = 2 * ((p - 1) / 2) + 2 := by omega
      have hrec := ih ((p - 1) / 2) (by omega) (by omega)
      have hh := hheap ((p - 1) / 2)
      rcases hpar with h | h
      · have h1 := hh.1 (by omega)
        rw [← h] at h1
        exact hA.trans _ _ _ h1 hrec
      · have h2 := hh.2 (by omega)
        rw [← h] at h2
        exact hA.trans _ _ _ h2 hrec

theorem sort.heapSort_pop_spec {α : Type} {less : α → α → Bool} {R : α → α → Prop}
    (hA : sort.Agrees less R) (first n : Nat) :
    ∀ (cnt : Nat) (d : sort.Mem α), cnt ≤ n →
      (∀ j, sort.HeapAt R d first cnt j) →
      sort.SortedOn R d (first + cnt) (first + n) →
      (∀ p q, p < cnt → cnt ≤ q → q < n → R (d.get (first + p)) (d.get (first + q))) →
      sort.Permutes first (first + cnt) d (sort.heapSort_pop less first cnt d) ∧
        sort.SortedOn R (sort.heapSort_pop less first cnt d) first (first + n) := by
  intro cnt
  induction cnt with
  | zero =>
    intro d _ _ hs _
    exact ⟨sort.Permutes.refl _ _ _, hs⟩
  | succ i ih =>
    intro d hcnt hheap hsorted hbelow
    unfold sort.heapSort_pop sort.siftDown_func
    have hmax := sort.heap_root_max hA d first (i + 1) hheap
    have hswap : sort.Permutes first (first + (i + 1)) d (sort.Swap d first (first + i)) :=
      sort.Permutes.swap _ _ d _ _ (by omega) (by omega)
    have hsift := sort.siftDown_loop_spec hA i first 0 i 0 (sort.Swap d first (first + i))
      (le_refl 0) (by omega)
      (by
        intro j _ hj0
        constructor
        · intro h1
          rw [sort.Swap_get_other d _ _ _ (by omega) (by omega),
            sort.Swap_get_other d _ _ _ (by omega) (by omega)]
          exact (hheap j).1 (by omega)
        · intro h2
          rw [sort.Swap_get_other d _ _ _ (by omega) (by omega),
            sort.Swap_get_other d _ _ _ (by omega) (by omega)]
          exact (hheap j).2 (by omega))
      (fun j _ hj => absurd hj (by omega))
    have hsift1 : sort.Permutes first (first + i) (sort.Swap d first (first + i))
        (sort.siftDown_loop less i first i 0 (sort.Swap d first (first + i))) := by
      simpa using hsift.1
    have hrec := ih (sort.siftDown_loop less i first i 0 (sort.Swap d first (first + i)))
      (by omega) (fun j => hsift.2 j (Nat.zero_le j)) ?_ ?_
    · exact ⟨hswap.trans ((hsift1.trans hrec.1).mono (le_refl _) (by omega)), hrec.2⟩
    · intro p q hp hpq hq
      rw [hsift1.get_outside p (by omega), hsift1.get_outside q (by omega)]
      rw [sort.Swap_get_other d _ _ q (by omega) (by omega)]
      by_cases hpi : p = first + i
      · subst hpi
        rw [sort.Swap_get_right]
        have := hbelow 0 (q - first) (by omega) (by omega) (by omega)
        rw [show first + (q - first) = q by omega] at this
        simpa using this
      · rw [sort.Swap_get_other d _ _ p (by omega) (by omega)]
        exact hsorted p q (by omega) hpq hq
    · intro p q hp hq hqn
      rw [hsift1.get_outside (first + q) (by omega)]
      have hall : ∀ x, first ≤ x → x < first + i →
          R ((sort.Swap d first (first + i)).get x)
            ((sort.Swap d first (first + i)).get (first + q)) := by
        intro x hx1 hx2
        have hsrc : ∃ p', p' < i + 1 ∧ (sort.Swap d first (first + i)).get x = d.get (first + p') := by
          by_cases hx0 : x = first
          · subst hx0
            exact ⟨i, by omega, sort.Swap_get_left d _ _⟩
          · refine ⟨x - first, by omega, ?_⟩
            rw [sort.Swap_get_other d _ _ x hx0 (by omega)]
            congr 1
            omega
        obtain ⟨p', hp', hget⟩ := hsrc
        rw [hget]
        by_cases hqi : q = i
        · subst hqi
          rw [sort.Swap_get_right]
          simpa using hmax p' hp'
        · rw [sort.Swap_get_other d _ _ (first + q) (by omega) (by omega)]
          exact hbelow p' q hp' (by omega) hqn
      exact hsift1.forall_inside
        (fun y => R y ((sort.Swap d first (first + i)).get (first + q))) hall (first + p)
        (by omega) (by omega)

theorem sort.heapSort_func_spec {α : Type} {less : α → α → Bool} {R : α → α → Prop}
    (hA : sort.Agrees less R) (d : sort.Mem α) (a b : Nat) (hab : a ≤ b) :
    sort.Permutes a b d (sort.heapSort_func less d a b) ∧
      sort.SortedOn R (sort.heapSort_func less d a b) a b := by
  unfold sort.heapSort_func
  have hb : a + (b - a) = b := by omega
  have hbuild := sort.heapSort_build_spec hA (b - a) a ((b - a - 1) / 2 + 1) d
    (by
      intro j hj
      exact ⟨fun h => absurd h (by omega), fun h => absurd h (by omega)⟩)
  have hpop := sort.heapSort_pop_spec hA a (b - a) (b - a)
    (sort.heapSort_build less (b - a) a ((b - a - 1) / 2 + 1) d) (le_refl _) hbuild.2
    (by
      intro p q hp hpq hq
      omega)
    (by
      intro p q hp hq hqn
      omega)
  rw [hb] at hbuild hpop
  exact ⟨hbuild.1.trans hpop.1, hpop.2⟩

/-! ## The library sort: the choice of the pivot -/

theorem sort.swapIfLess_get_other {α : Type} (less : α → α → Bool) (d : sort.Mem α)
    (i j k : Nat) (hi : k ≠ i) (hj : k ≠ j) : (sort.swapIfLess less d i j).get k = d.get k := by
  unfold sort.swapIfLess
  split
  · exact sort.Swap_get_other d i j k hi hj
  · rfl

theorem sort.swapIfLess_le {α : Type} {less : α → α → Bool} {R : α → α → Prop}
    (hA : sort.Agrees less R) (d : sort.Mem α) (i j : Nat) :
    R ((sort.swapIfLess less d i j).get j) ((sort.swapIfLess less d i j).get i) := by
  unfold sort.swapIfLess
  cases hl : sort.Less less d i j with
  | true =>
    simp only [if_true]
    rw [sort.Swap_get_right, sort.Swap_get_left]
    exact hA.of_true _ _ hl
  | false =>
    simp only [Bool.false_eq_true, if_false]
    exact hA.of_false _ _ hl

theorem sort.medianOfThree_func_permutes {α : Type} (less : α → α → Bool) (lo hi : Nat)
    (d : sort.Mem α) (m1 m0 m2 : Nat) (h1 : lo ≤ m1 ∧ m1 < hi) (h0 : lo ≤ m0 ∧ m0 < hi)
    (h2 : lo ≤ m2 ∧ m2 < hi) :
    sort.Permutes lo hi d (sort.medianOfThree_func less d m1 m0 m2) := by
  unfold sort.medianOfThree_func
  have hs1 := sort.Permutes.swapIfLess less lo hi d m1 m0 h1 h0
  split
  · exact (hs1.trans (sort.Permutes.swap lo hi _ m2 m1 h2 h1)).trans
      (sort.Permutes.swapIfLess less lo hi _ m1 m0 h1 h0)
  · exact hs1

theorem sort.medianOfThree_func_le {α : Type} {less : α → α → Bool} {R : α → α → Prop}
    (hA : sort.Agrees less R) (d : sort.Mem α) (m1 m0 m2 : Nat)
    (h10 : m1 ≠ m0) (h12 : m1 ≠ m2) (h02 : m0 ≠ m2) :
    R ((sort.medianOfThree_func less d m1 m0 m2).get m1)
      ((sort.medianOfThree_func less d m1 m0 m2).get m2) := by
  unfold sort.medianOfThree_func
  have hle1 := sort.swapIfLess_le hA d m1 m0
  generalize sort.swapIfLess less d m1 m0 = d1 at hle1 ⊢
  cases hl : sort.Less less d1 m2 m1 with
  | true =>
    simp only [if_true]
    have hR : R (d1.get m2) (d1.get m1) := hA.of_true _ _ hl
    unfold sort.swapIfLess
    cases hl2 : sort.Less less (sort.Swap d1 m2 m1) m1 m0 with
    | true =>
      simp only [if_true]
      rw [sort.Swap_get_left, sort.Swap_get_other _ _ _ m2 (Ne.symm h12) (Ne.symm h02),
        sort.Swap_get_other d1 _ _ m0 h02 (Ne.symm h10), sort.Swap_get_left]
      exact hle1
    | false =>
      simp only [Bool.false_eq_true, if_false]
      rw [sort.Swap_get_right, sort.Swap_get_left]
      exact hR
  | false =>
    simp only [Bool.false_eq_true, if_false]
    exact hA.of_false _ _ hl

theorem sort.doPivot_choose_spec {α : Type} {less : α → α → Bool} {R : α → α → Prop}
    (hA : sort.Agrees less R) (d : sort.Mem α) (lo hi : Nat) (hlen : 12 < hi - lo) :
    sort.Permutes lo hi d (sort.doPivot_choose less d lo hi) ∧
      R ((sort.doPivot_choose less d lo hi).get lo)
        ((sort.doPivot_choose less d lo hi).get (hi - 1)) := by
  unfold sort.doPivot_choose
  constructor
  · refine sort.Permutes.trans ?_
      (sort.medianOfThree_func_permutes less lo hi _ lo ((lo + hi) / 2) (hi - 1)
        (by omega) (by omega) (by omega))
    split
    · refine ((sort.medianOfThree_func_permutes less lo hi d _ _ _
        (by omega) (by omega) (by omega)).trans
        (sort.medianOfThree_func_permutes less lo hi _ _ _ _
          (by omega) (by omega) (by omega))).trans
        (sort.medianOfThree_func_permutes less lo hi _ _ _ _ (by omega) (by omega) (by omega))
    · exact sort.Permutes.refl _ _ _
  · exact sort.medianOfThree_func_le hA _ lo ((lo + hi) / 2) (hi - 1)
      (by omega) (by omega) (by omega)

/-! ## The library sort: the scans and the partition -/

theorem sort.scanUp_spec (p : Nat → Bool) :
    ∀ (n i : Nat), i ≤ sort.scanUp p n i ∧ sort.scanUp p n i ≤ i + n ∧
      (∀ x, i ≤ x → x < sort.scanUp p n i → p x = true) ∧
      (sort.scanUp p n i < i + n → p (sort.scanUp p n i) = false) := by
  intro n
  induction n with
  | zero =>
    intro i
    exact ⟨le_refl _, le_refl _, fun x h1 h2 => absurd h2 (by simp [sort.scanUp]; omega),
      fun h => absurd h (by simp [sort.scanUp])⟩
  | succ n ih =>
    intro i
    unfold sort.scanUp
    cases hp : p i with
    | true =>
      simp only [if_true]
      obtain ⟨h1, h2, h3, h4⟩ := ih (i + 1)
      refine ⟨by omega, by omega, ?_, fun h => h4 (by omega)⟩
      intro x hx1 hx2
      by_cases hxi : x = i
      · rw [hxi]; exact hp
      · exact h3 x (by omega) hx2
    | false =>
      simp only [Bool.false_eq_true, if_false]
      exact ⟨le_refl _, by omega, fun x h1 h2 => absurd h2 (by omega), fun _ => hp⟩

theorem sort.scanDown_spec (p : Nat → Bool) :
    ∀ (n c : Nat), n ≤ c → c - n ≤ sort.scanDown p n c ∧ sort.scanDown p n c ≤ c ∧
      (∀ x, sort.scanDown p n c ≤ x → x < c → p x = true) ∧
      (c - n < sort.scanDown p n c → p (sort.scanDown p n c - 1) = false) := by
  intro n
  induction n with
  | zero =>
    intro c _
    exact ⟨by simp [sort.scanDown], le_refl _,
      fun x h1 h2 => absurd h2 (by simp [sort.scanDown] at h1; omega),
      fun h => absurd h (by simp [sort.scanDown])⟩
  | succ n ih =>
    intro c hc
    unfold sort.scanDown
    cases hp : p (c - 1) with
    | true =>
      simp only [if_true]
      obtain ⟨h1, h2, h3, h4⟩ := ih (c - 1) (by omega)
      refine ⟨by omega, by omega, ?_, fun h => h4 (by omega)⟩
      intro x hx1 hx2
      by_cases hxc : x = c - 1
      · rw [hxc]; exact hp
      · exact h3 x hx1 (by omega)
    | false =>
      simp only [Bool.false_eq_true, if_false]
      exact ⟨by omega, le_refl _, fun x h1 h2 => absurd h2 (by omega), fun _ => hp⟩

theorem sort.doPivot_partition_spec {α : Type} {less : α → α → Bool} {R : α → α → Prop}
    (hA : sort.Agrees less R) (lo hi : Nat) (pv : α) :
    ∀ (n : Nat) (d : sort.Mem α) (b c : Nat), lo < b → b ≤ c → c ≤ hi - 1 → c - b ≤ n →
      d.get lo = pv →
      (∀ x, lo < x → x < b → R (d.get x) pv) →
      (∀ x, c ≤ x → x < hi - 1 → R pv (d.get x)) →
      sort.Permutes (lo + 1) (hi - 1) d (sort.doPivot_partition less lo n d b c).1 ∧
      (sort.doPivot_partition less lo n d b c).2.1 = (sort.doPivot_partition less lo n d b c).2.2 ∧
      b ≤ (sort.doPivot_partition less lo n d b c).2.1 ∧
      (sort.doPivot_partition less lo n d b c).2.2 ≤ c ∧
      (sort.doPivot_partition less lo n d b c).1.get lo = pv ∧
      (∀ x, lo < x → x < (sort.doPivot_partition less lo n d b c).2.1 →
        R ((sort.doPivot_partition less lo n d b c).1.get x) pv) ∧
      (∀ x, (sort.doPivot_partition less lo n d b c).2.2 ≤ x → x < hi - 1 →
        R pv ((sort.doPivot_partition less lo n d b c).1.get x)) := by
  intro n
  induction n with
  | zero =>
    intro d b c hb hbc hc hn hpv hleft hright
    have hbc' : b = c := by omega
    subst hbc'
    exact ⟨sort.Permutes.refl _ _ _, rfl, le_refl _, le_refl _, hpv, hleft, hright⟩
  | succ n ih =>
    intro d b c hb hbc hc hn hpv hleft hright
    unfold sort.doPivot_partition
    dsimp only
    obtain ⟨hu1, hu2, hu3, hu4⟩ := sort.scanUp_spec (fun i => !sort.Less less d lo i) (c - b) b
    generalize sort.scanUp (fun i => !sort.Less less d lo i) (c - b) b = b1 at hu1 hu2 hu3 hu4 ⊢
    obtain ⟨hd1, hd2, hd3, hd4⟩ :=
      sort.scanDown_spec (fun i => sort.Less less d lo i) (c - b1) c (by omega)
    generalize sort.scanDown (fun i => sort.Less less d lo i) (c - b1) c = c1 at hd1 hd2 hd3 hd4 ⊢
    have hleft1 : ∀ x, lo < x → x < b1 → R (d.get x) pv := by
      intro x hx1 hx2
      by_cases hxb : x < b
      · exact hleft x hx1 hxb
      · have := hu3 x (by omega) hx2
        rw [← hpv]
        exact hA.of_false _ _ (by simpa [sort.Less] using this)
    have hright1 : ∀ x, c1 ≤ x → x < hi - 1 → R pv (d.get x) := by
      intro x hx1 hx2
      by_cases hxc : c ≤ x
      · exact hright x hxc hx2
      · have := hd3 x hx1 (by omega)
        rw [← hpv]
        exact hA.of_true _ _ this
    by_cases hstop : b1 ≥ c1
    · rw [if_pos hstop]
      exact ⟨sort.Permutes.refl _ _ _, by dsimp only; omega, hu1, hd2, hpv, hleft1, hright1⟩
    · rw [if_neg hstop]
      have hlb : sort.Less less d lo b1 = true := by
        have := hu4 (by omega)
        simpa using this
      have hlc : sort.Less less d lo (c1 - 1) = false := hd4 (by omega)
      have hne : b1 ≠ c1 - 1 := by
        intro h
        rw [h, hlc] at hlb
        exact absurd hlb (by decide)
      have hstep := ih (sort.Swap d b1 (c1 - 1)) (b1 + 1) (c1 - 1) (by omega) (by omega)
        (by omega) (by omega)
        (by rw [sort.Swap_get_other d _ _ lo (by omega) (by omega)]; exact hpv)
        (by
          intro x hx1 hx2
          by_cases hxb : x = b1
          · subst hxb
            rw [sort.Swap_get_left, ← hpv]
            exact hA.of_false _ _ hlc
          · rw [sort.Swap_get_other d _ _ x hxb (by omega)]
            exact hleft1 x hx1 (by omega))
        (by
          intro x hx1 hx2
          by_cases hxc : x = c1 - 1
          · subst hxc
            rw [sort.Swap_get_right, ← hpv]
            exact hA.of_true _ _ hlb
          · rw [sort.Swap_get_other d _ _ x (by omega) hxc]
            exact hright1 x (by omega) hx2)
      obtain ⟨hs1, hs2, hs3, hs4, hs5, hs6, hs7⟩ := hstep
      exact ⟨(sort.Permutes.swap _ _ d b1 (c1 - 1) (by omega) (by omega)).trans hs1, hs2,
        by omega, by omega, hs5, hs6, hs7⟩

/-! ## The library sort: the checks for duplicates of the pivot -/

theorem sort.Partitioned.swap_right {α : Type} {R : α → α → Prop} {d : sort.Mem α}
    {lo hi b c : Nat} {pv : α} (h : sort.Partitioned R d lo hi b c pv)
    (hb : lo < b) (hbc : b ≤ c) (hc : c < hi) (hR : R (d.get (hi - 1)) pv) :
    sort.Partitioned R (sort.Swap d c (hi - 1)) lo hi b (c + 1) pv := by
  obtain ⟨hpv, hleft, hmid, hright⟩ := h
  refine ⟨?_, ?_, ?_, ?_⟩
  · rw [sort.Swap_get_other d _ _ lo (by omega) (by omega)]
    exact hpv
  · intro x hx1 hx2
    rw [sort.Swap_get_other d _ _ x (by omega) (by omega)]
    exact hleft x hx1 hx2
  · intro x hx1 hx2
    by_cases hxc : x = c
    · subst hxc
      rw [sort.Swap_get_left]
      exact ⟨hR, hright (hi - 1) (by omega) (by omega)⟩
    · rw [sort.Swap_get_other d _ _ x hxc (by omega)]
      exact hmid x hx1 (by omega)
  · intro x hx1 hx2
    by_cases hxh : x = hi - 1
    · subst hxh
      rw [sort.Swap_get_right]
      exact hright c (le_refl _) hc
    · rw [sort.Swap_get_other d _ _ x (by omega) hxh]
      exact hright x (by omega) hx2

theorem sort.Partitioned.extend_left {α : Type} {R : α → α → Prop} {d : sort.Mem α}
    {lo hi b c : Nat} {pv : α} (h : sort.Partitioned R d lo hi b c pv) (b1 : Nat)
    (hlo : lo < b1) (hb1 : b1 ≤ b) (hR : ∀ x, b1 ≤ x → x < b → R pv (d.get x)) :
    sort.Partitioned R d lo hi b1 c pv := by
  obtain ⟨hpv, hleft, hmid, hright⟩ := h
  refine ⟨hpv, ?_, ?_, hright⟩
  · intro x hx1 hx2
    exact hleft x hx1 (by omega)
  · intro x hx1 hx2
    by_cases hxb : x < b
    · exact ⟨hleft x (by omega) hxb, hR x hx1 hxb⟩
    · exact hmid x (by omega) hx2

theorem sort.Partitioned.swap_mid {α : Type} {R : α → α → Prop} {d : sort.Mem α}
    {lo hi b c : Nat} {pv : α} (h : sort.Partitioned R d lo hi b c pv) (m : Nat)
    (hm1 : lo < m) (hm2 : m < b) (hbc : b ≤ c) (hR : R pv (d.get m)) :
    sort.Partitioned R (sort.Swap d m (b - 1)) lo hi (b - 1) c pv := by
  obtain ⟨hpv, hleft, hmid, hright⟩ := h
  refine ⟨?_, ?_, ?_, ?_⟩
  · rw [sort.Swap_get_other d _ _ lo (by omega) (by omega)]
    exact hpv
  · intro x hx1 hx2
    by_cases hxm : x = m
    · subst hxm
      rw [sort.Swap_get_left]
      exact hleft (b - 1) (by omega) (by omega)
    · rw [sort.Swap_get_other d _ _ x hxm (by omega)]
      exact hleft x hx1 (by omega)
  · intro x hx1 hx2
    by_cases hxb : x = b - 1
    · subst hxb
      rw [sort.Swap_get_right]
      exact ⟨hleft m hm1 hm2, hR⟩
    · rw [sort.Swap_get_other d _ _ x (by omega) hxb]
      exact hmid x (by omega) hx2
  · intro x hx1 hx2
    rw [sort.Swap_get_other d _ _ x (by omega) (by omega)]
    exact hright x hx1 hx2

theorem sort.doPivot_dups_spec {α : Type} {less : α → α → Bool} {R : α → α → Prop}
    (hA : sort.Agrees less R) (d : sort.Mem α) (lo hi b c : Nat) (pv : α)
    (hpart : sort.Partitioned R d lo hi b c pv) (hbc : b = c) (h5 : 5 ≤ hi - c)
    (h4 : hi - c < (hi - lo) / 4) :
    sort.Permutes (lo + 1) hi d (sort.doPivot_dups less d lo ((lo + hi) / 2) hi b c).1 ∧
    lo < (sort.doPivot_dups less d lo ((lo + hi) / 2) hi b c).2.1 ∧
    (sort.doPivot_dups less d lo ((lo + hi) / 2) hi b c).2.1 ≤ b ∧
    (sort.doPivot_dups less d lo ((lo + hi) / 2) hi b c).2.1
      ≤ (sort.doPivot_dups less d lo ((lo + hi) / 2) hi b c).2.2.1 ∧
    (sort.doPivot_dups less d lo ((lo + hi) / 2) hi b c).2.2.1 ≤ hi ∧
    sort.Partitioned R (sort.doPivot_dups less d lo ((lo + hi) / 2) hi b c).1 lo hi
      (sort.doPivot_dups less d lo ((lo + hi) / 2) hi b c).2.1
      (sort.doPivot_dups less d lo ((lo + hi) / 2) hi b c).2.2.1 pv := by
  subst hbc
  unfold sort.doPivot_dups
  dsimp only
  have h1 : sort.Permutes (lo + 1) hi d
        (if (!sort.Less less d lo (hi - 1)) = true then (sort.Swap d b (hi - 1), b + 1, 1)
          else (d, b, 0)).1 ∧
      sort.Partitioned R
        (if (!sort.Less less d lo (hi - 1)) = true then (sort.Swap d b (hi - 1), b + 1, 1)
          else (d, b, 0)).1 lo hi b
        (if (!sort.Less less d lo (hi - 1)) = true then (sort.Swap d b (hi - 1), b + 1, 1)
          else (d, b, 0)).2.1 pv ∧
      b ≤ (if (!sort.Less less d lo (hi - 1)) = true then (sort.Swap d b (hi - 1), b + 1, 1)
          else (d, b, 0)).2.1 ∧
      (if (!sort.Less less d lo (hi - 1)) = true then (sort.Swap d b (hi - 1), b + 1, 1)
          else (d, b, 0)).2.1 ≤ b + 1 := by
    cases hl : sort.Less less d lo (hi - 1) with
    | false =>
      simp only [Bool.not_false, if_true]
      refine ⟨sort.Permutes.swap _ _ d _ _ (by omega) (by omega), ?_, by omega, le_refl _⟩
      refine hpart.swap_right (by omega) (le_refl _) (by omega) ?_
      rw [← hpart.1]
      exact hA.of_false _ _ hl
    | true =>
      simp only [Bool.not_true, Bool.false_eq_true, if_false]
      exact ⟨sort.Permutes.refl _ _ _, hpart, le_refl _, by omega⟩
  generalize (if (!sort.Less less d lo (hi - 1)) = true then (sort.Swap d b (hi - 1), b + 1, 1)
          else (d, b, 0)) = s1 at h1 ⊢
  obtain ⟨d1, c1, k1⟩ := s1
  dsimp only at h1 ⊢
  obtain ⟨hperm1, hpart1, hc1a, hc1b⟩ := h1
  have h2 : sort.Partitioned R d1 lo hi
        (if (!sort.Less less d1 (b - 1) lo) = true then (b - 1, k1 + 1) else (b, k1)).1 c1 pv ∧
      b - 1 ≤ (if (!sort.Less less d1 (b - 1) lo) = true then (b - 1, k1 + 1) else (b, k1)).1 ∧
      (if (!sort.Less less d1 (b - 1) lo) = true then (b - 1, k1 + 1) else (b, k1)).1 ≤ b := by
    cases hl : sort.Less less d1 (b - 1) lo with
    | false =>
      simp only [Bool.not_false, if_true]
      refine ⟨hpart1.extend_left (b - 1) (by omega) (by omega) ?_, le_refl _, by omega⟩
      intro x hx1 hx2
      have hx : x = b - 1 := by omega
      rw [hx, ← hpart1.1]
      exact hA.of_false _ _ hl
    | true =>
      simp only [Bool.not_true, Bool.false_eq_true, if_false]
      exact ⟨hpart1, by omega, le_refl _⟩
  generalize (if (!sort.Less less d1 (b - 1) lo) = true then (b - 1, k1 + 1) else (b, k1)) = s2
    at h2 ⊢
  obtain ⟨b2, k2⟩ := s2
  dsimp only at h2 ⊢
  obtain ⟨hpart2, hb2a, hb2b⟩ := h2
  cases hl : sort.Less less d1 ((lo + hi) / 2) lo with
  | false =>
    simp only [Bool.not_false, if_true]
    refine ⟨hperm1.trans (sort.Permutes.swap _ _ d1 _ _ (by omega) (by omega)), by omega,
      by omega, by omega, by omega, ?_⟩
    refine hpart2.swap_mid ((lo + hi) / 2) (by omega) (by omega) (by omega) ?_
    rw [← hpart2.1]
    exact hA.of_false _ _ hl
  | true =>
    simp only [Bool.not_true, Bool.false_eq_true, if_false]
    exact ⟨hperm1, by omega, by omega, by omega, by omega, hpart2⟩

/-! ## The library sort: the loop against many duplicates, and `doPivot_func` -/

theorem sort.doPivot_protect_spec {α : Type} {less : α → α → Bool} {R : α → α → Prop}
    (hA : sort.Agrees less R) (lo hi c : Nat) (pv : α) (hc : c ≤ hi) :
    ∀ (n : Nat) (d : sort.Mem α) (a b : Nat), lo < a → lo < b → b ≤ c → b - a ≤ n →
      sort.Partitioned R d lo hi b c pv →
      sort.Permutes (lo + 1) hi d (sort.doPivot_protect less lo n d a b).1 ∧
      lo < (sort.doPivot_protect less lo n d a b).2.2 ∧
      (sort.doPivot_protect less lo n d a b).2.2 ≤ b ∧
      sort.Partitioned R (sort.doPivot_protect less lo n d a b).1 lo hi
        (sort.doPivot_protect less lo n d a b).2.2 c pv := by
  intro n
  induction n with
  | zero =>
    intro d a b _ hb _ _ hpart
    exact ⟨sort.Permutes.refl _ _ _, hb, le_refl _, hpart⟩
  | succ n ih =>
    intro d a b ha hb hbc hn hpart
    unfold sort.doPivot_protect
    dsimp only
    obtain ⟨hd1, hd2, hd3, hd4⟩ :=
      sort.scanDown_spec (fun i => !sort.Less less d i lo) (b - a) b (by omega)
    generalize sort.scanDown (fun i => !sort.Less less d i lo) (b - a) b = b1
      at hd1 hd2 hd3 hd4 ⊢
    obtain ⟨hu1, hu2, hu3, hu4⟩ := sort.scanUp_spec (fun i => sort.Less less d i lo) (b1 - a) a
    generalize sort.scanUp (fun i => sort.Less less d i lo) (b1 - a) a = a1 at hu1 hu2 hu3 hu4 ⊢
    have hpart1 : sort.Partitioned R d lo hi b1 c pv := by
      refine hpart.extend_left b1 (by omega) hd2 ?_
      intro x hx1 hx2
      have := hd3 x hx1 hx2
      rw [← hpart.1]
      exact hA.of_false _ _ (by simpa using this)
    by_cases hstop : a1 ≥ b1
    · rw [if_pos hstop]
      exact ⟨sort.Permutes.refl _ _ _, by dsimp only; omega, hd2, hpart1⟩
    · rw [if_neg hstop]
      have hla : sort.Less less d a1 lo = false := hu4 (by omega)
      have hpart2 : sort.Partitioned R (sort.Swap d a1 (b1 - 1)) lo hi (b1 - 1) c pv := by
        refine hpart1.swap_mid a1 (by omega) (by omega) (by omega) ?_
        rw [← hpart1.1]
        exact hA.of_false _ _ hla
      obtain ⟨hs1, hs2, hs3, hs4⟩ := ih (sort.Swap d a1 (b1 - 1)) (a1 + 1) (b1 - 1) (by omega)
        (by omega) (by omega) (by omega) hpart2
      exact ⟨(sort.Permutes.swap _ _ d a1 (b1 - 1) (by omega) (by omega)).trans hs1, hs2,
        by omega, hs4⟩

theorem sort.Partitioned.swap_pivot {α : Type} {less : α → α → Bool} {R : α → α → Prop}
    (hA : sort.Agrees less R) {d : sort.Mem α} {lo hi b c : Nat} {pv : α}
    (h : sort.Partitioned R d lo hi b c pv) (hb : lo < b) (hbc : b ≤ c) :
    (∀ x, lo ≤ x → x < b - 1 → R ((sort.Swap d lo (b - 1)).get x) pv) ∧
    (∀ x, b - 1 ≤ x → x < c →
      R ((sort.Swap d lo (b - 1)).get x) pv ∧ R pv ((sort.Swap d lo (b - 1)).get x)) ∧
    (∀ x, c ≤ x → x < hi → R pv ((sort.Swap d lo (b - 1)).get x)) := by
  obtain ⟨hpv, hleft, hmid, hright⟩ := h
  refine ⟨?_, ?_, ?_⟩
  · intro x hx1 hx2
    by_cases hxl : x = lo
    · subst hxl
      rw [sort.Swap_get_left]
      exact hleft (b - 1) (by omega) (by omega)
    · rw [sort.Swap_get_other d _ _ x hxl (by omega)]
      exact hleft x (by omega) (by omega)
  · intro x hx1 hx2
    by_cases hxb : x = b - 1
    · subst hxb
      rw [sort.Swap_get_right, hpv]
      exact ⟨hA.rel_self pv, hA.rel_self pv⟩
    · rw [sort.Swap_get_other d _ _ x (by omega) hxb]
      exact hmid x (by omega) hx2
  · intro x hx1 hx2
    rw [sort.Swap_get_other d _ _ x (by omega) (by omega)]
    exact hright x hx1 hx2

theorem sort.doPivot_func_spec {α : Type} {less : α → α → Bool} {R : α → α → Prop}
    (hA : sort.Agrees less R) (d : sort.Mem α) (lo hi : Nat) (hlen : 12 < hi - lo) :
    sort.Permutes lo hi d (sort.doPivot_func less d lo hi).1 ∧
    lo ≤ (sort.doPivot_func less d lo hi).2.1 ∧
    (sort.doPivot_func less d lo hi).2.1 < (sort.doPivot_func less d lo hi).2.2 ∧
    (sort.doPivot_func less d lo hi).2.2 ≤ hi ∧
    ∃ pv : α,
      (∀ x, lo ≤ x → x < (sort.doPivot_func less d lo hi).2.1 →
        R ((sort.doPivot_func less d lo hi).1.get x) pv) ∧
      (∀ x, (sort.doPivot_func less d lo hi).2.1 ≤ x → x < (sort.doPivot_func less d lo hi).2.2 →
        R ((sort.doPivot_func less d lo hi).1.get x) pv ∧
          R pv ((sort.doPivot_func less d lo hi).1.get x)) ∧
      (∀ x, (sort.doPivot_func less d lo hi).2.2 ≤ x → x < hi →
        R pv ((sort.doPivot_func less d lo hi).1.get x)) := by
  unfold sort.doPivot_func
  dsimp only
  obtain ⟨hchoose, hlast⟩ := sort.doPivot_choose_spec hA d lo hi hlen
  generalize sort.doPivot_choose less d lo hi = d1 at hchoose hlast ⊢
  obtain ⟨hu1, hu2, hu3, _⟩ :=
    sort.scanUp_spec (fun i => sort.Less less d1 i lo) (hi - 1 - (lo + 1)) (lo + 1)
  generalize sort.scanUp (fun i => sort.Less less d1 i lo) (hi - 1 - (lo + 1)) (lo + 1) = a
    at hu1 hu2 hu3 ⊢
  have hpart := sort.doPivot_partition_spec hA lo hi (d1.get lo) (hi - 1 - a) d1 a (hi - 1)
    (by omega) (by omega) (le_refl _) (le_refl _) rfl
    (by
      intro x hx1 hx2
      exact hA.of_true _ _ (hu3 x (by omega) hx2))
    (by
      intro x hx1 hx2
      omega)
  generalize sort.doPivot_partition less lo (hi - 1 - a) d1 a (hi - 1) = p at hpart ⊢
  obtain ⟨dp, b, c⟩ := p
  dsimp only at hpart ⊢
  obtain ⟨hp1, hp2, hp3, hp4, hp5, hp6, hp7⟩ := hpart
  subst hp2
  have hpartitioned : sort.Partitioned R dp lo hi b b (d1.get lo) := by
    refine ⟨hp5, hp6, fun x h1 h2 => absurd h2 (by omega), ?_⟩
    intro x hx1 hx2
    by_cases hxl : x = hi - 1
    · subst hxl
      rw [hp1.get_outside (hi - 1) (by omega)]
      exact hlast
    · exact hp7 x hx1 (by omega)
  have hdups : ∀ dd : sort.Mem α × Nat × Nat × Nat,
      dd = (if (!decide (hi - b < 5) && decide (hi - b < (hi - lo) / 4)) = true then
          sort.doPivot_dups less dp lo ((lo + hi) / 2) hi b b
        else (dp, b, b, 0)) →
      sort.Permutes (lo + 1) hi dp dd.1 ∧ lo < dd.2.1 ∧ dd.2.1 ≤ dd.2.2.1 ∧ dd.2.2.1 ≤ hi ∧
        sort.Partitioned R dd.1 lo hi dd.2.1 dd.2.2.1 (d1.get lo) := by
    intro dd hdd
    by_cases hcond : (!decide (hi - b < 5) && decide (hi - b < (hi - lo) / 4)) = true
    · rw [if_pos hcond] at hdd
      have hc := hcond
      simp only [Bool.and_eq_true, Bool.not_eq_true', decide_eq_false_iff_not,
        decide_eq_true_eq] at hc
      obtain ⟨h1, h2, _, h4, h5, h6⟩ := sort.doPivot_dups_spec hA dp lo hi b b (d1.get lo)
        hpartitioned rfl (by omega) hc.2
      rw [hdd]
      exact ⟨h1, h2, h4, h5, h6⟩
    · rw [if_neg hcond] at hdd
      rw [hdd]
      exact ⟨sort.Permutes.refl _ _ _, by dsimp only; omega, le_refl _, by dsimp only; omega,
        hpartitioned⟩
  have hd := hdups _ rfl
  generalize (if (!decide (hi - b < 5) && decide (hi - b < (hi - lo) / 4)) = true then
          sort.doPivot_dups less dp lo ((lo + hi) / 2) hi b b
        else (dp, b, b, 0)) = dd at hd ⊢
  obtain ⟨dq, b2, c2, k⟩ := dd
  dsimp only at hd ⊢
  obtain ⟨hd1, hd2, hd3, hd4, hd5⟩ := hd
  have hprot : ∀ q : sort.Mem α × Nat × Nat,
      q = (if (decide (hi - b < 5) || decide (k > 1)) = true then
          sort.doPivot_protect less lo (b2 - a) dq a b2
        else (dq, a, b2)) →
      sort.Permutes (lo + 1) hi dq q.1 ∧ lo < q.2.2 ∧ q.2.2 ≤ b2 ∧
        sort.Partitioned R q.1 lo hi q.2.2 c2 (d1.get lo) := by
    intro q hq
    by_cases hcond : (decide (hi - b < 5) || decide (k > 1)) = true
    · rw [if_pos hcond] at hq
      rw [hq]
      exact sort.doPivot_protect_spec hA lo hi c2 (d1.get lo) hd4 (b2 - a) dq a b2 (by omega)
        hd2 hd3 (le_refl _) hd5
    · rw [if_neg hcond] at hq
      rw [hq]
      exact ⟨sort.Permutes.refl _ _ _, hd2, le_refl _, hd5⟩
  have hq := hprot _ rfl
  generalize (if (decide (hi - b < 5) || decide (k > 1)) = true then
          sort.doPivot_protect less lo (b2 - a) dq a b2
        else (dq, a, b2)) = q at hq ⊢
  obtain ⟨dr, a3, b3⟩ := q
  dsimp only at hq ⊢
  obtain ⟨hq1, hq2, hq3, hq4⟩ := hq
  have hfinal := sort.Partitioned.swap_pivot hA hq4 hq2 (by omega)
  refine ⟨?_, by omega, by omega, hd4, d1.get lo, hfinal⟩
  have h1 : sort.Permutes lo hi d1 dp := hp1.mono (by omega) (by omega)
  have h2 : sort.Permutes lo hi dp dq := hd1.mono (by omega) (le_refl _)
  have h3 : sort.Permutes lo hi dq dr := hq1.mono (by omega) (le_refl _)
  exact (((hchoose.trans h1).trans h2).trans h3).trans
    (sort.Permutes.swap lo hi dr lo (b3 - 1) (by omega) (by omega))

/-! ## The library sort: `quickSort_func` and `sort.Slice` -/

theorem sort.SortedOn.of_parts {α : Type} {less : α → α → Bool} {R : α → α → Prop}
    (hA : sort.Agrees less R) (d : sort.Mem α) (a b mlo mhi : Nat) (pv : α)
    (hleft : ∀ x, a ≤ x → x < mlo → R (d.get x) pv)
    (hmid : ∀ x, mlo ≤ x → x < mhi → R (d.get x) pv ∧ R pv (d.get x))
    (hright : ∀ x, mhi ≤ x → x < b → R pv (d.get x))
    (hsl : sort.SortedOn R d a mlo) (hsr : sort.SortedOn R d mhi b) :
    sort.SortedOn R d a b := by
  intro i j hai hij hjb
  by_cases hi1 : i < mlo
  · by_cases hj1 : j < mlo
    · exact hsl i j hai hij hj1
    · by_cases hj2 : j < mhi
      · exact hA.trans _ _ _ (hleft i hai hi1) (hmid j (by omega) hj2).2
      · exact hA.trans _ _ _ (hleft i hai hi1) (hright j (by omega) hjb)
  · by_cases hi2 : i < mhi
    · by_cases hj2 : j < mhi
      · exact hA.trans _ _ _ (hmid i (by omega) hi2).1 (hmid j (by omega) hj2).2
      · exact hA.trans _ _ _ (hmid i (by omega) hi2).1 (hright j (by omega) hjb)
    · exact hsr i j (by omega) hij hjb

theorem sort.quickSort_func_spec {α : Type} {less : α → α → Bool} {R : α → α → Prop}
    (hA : sort.Agrees less R) :
    ∀ (maxDepth : Nat) (d : sort.Mem α) (a b : Nat),
      sort.Permutes a b d (sort.quickSort_func less maxDepth d a b) ∧
        sort.SortedOn R (sort.quickSort_func less maxDepth d a b) a b := by
  intro maxDepth
  induction maxDepth with
  | zero =>
    intro d a b
    unfold sort.quickSort_func
    split
    · exact sort.heapSort_func_spec hA d a b (by omega)
    · exact sort.quickSort_small_spec hA d a b
  | succ maxDepth ih =>
    intro d a b
    unfold sort.quickSort_func
    dsimp only
    split
    · rename_i hlen
      obtain ⟨hperm, hlo, hmid, hhi, pv, hleft, hmidv, hright⟩ :=
        sort.doPivot_func_spec hA d a b hlen
      generalize sort.doPivot_func less d a b = p at hperm hlo hmid hhi hleft hmidv hright ⊢
      obtain ⟨dp, mlo, mhi⟩ := p
      dsimp only at hperm hlo hmid hhi hleft hmidv hright ⊢
      split
      · obtain ⟨h1p, h1s⟩ := ih dp a mlo
        generalize sort.quickSort_func less maxDepth dp a mlo = d2 at h1p h1s ⊢
        obtain ⟨h2p, h2s⟩ := ih d2 mhi b
        generalize sort.quickSort_func less maxDepth d2 mhi b = d3 at h2p h2s ⊢
        refine ⟨(hperm.trans (h1p.mono (le_refl _) (by omega))).trans
          (h2p.mono (by omega) (le_refl _)), ?_⟩
        refine sort.SortedOn.of_parts hA d3 a b mlo mhi pv ?_ ?_ ?_ ?_ h2s
        · intro x hx1 hx2
          rw [h2p.get_outside x (by omega)]
          exact h1p.forall_inside (fun y => R y pv) hleft x hx1 hx2
        · intro x hx1 hx2
          rw [h2p.get_outside x (by omega), h1p.get_outside x (by omega)]
          exact hmidv x hx1 hx2
        · intro x hx1 hx2
          refine h2p.forall_inside (fun y => R pv y) ?_ x hx1 hx2
          intro y hy1 hy2
          rw [h1p.get_outside y (by omega)]
          exact hright y hy1 hy2
        · intro i j hi hij hj
          rw [h2p.get_outside i (by omega), h2p.get_outside j (by omega)]
          exact h1s i j hi hij hj
      · obtain ⟨h1p, h1s⟩ := ih dp mhi b
        generalize sort.quickSort_func less maxDepth dp mhi b = d2 at h1p h1s ⊢
        obtain ⟨h2p, h2s⟩ := ih d2 a mlo
        generalize sort.quickSort_func less maxDepth d2 a mlo = d3 at h2p h2s ⊢
        refine ⟨(hperm.trans (h1p.mono (by omega) (le_refl _))).trans
          (h2p.mono (le_refl _) (by omega)), ?_⟩
        refine sort.SortedOn.of_parts hA d3 a b mlo mhi pv ?_ ?_ ?_ h2s ?_
        · intro x hx1 hx2
          refine h2p.forall_inside (fun y => R y pv) ?_ x hx1 hx2
          intro y hy1 hy2
          rw [h1p.get_outside y (by omega)]
          exact hleft y hy1 hy2
        · intro x hx1 hx2
          rw [h2p.get_outside x (by omega), h1p.get_outside x (by omega)]
          exact hmidv x hx1 hx2
        · intro x hx1 hx2
          rw [h2p.get_outside x (by omega)]
          exact h1p.forall_inside (fun y => R pv y) hright x hx1 hx2
        · intro i j hi hij hj
          rw [h2p.get_outside i (by omega), h2p.get_outside j (by omega)]
          exact h1s i j hi hij hj
    · exact sort.quickSort_small_spec hA d a b

theorem sort.maxDepth_loop_succ (n : Nat) :
    ∀ (i depth : Nat), i ≤ n →
      sort.maxDepth_loop (n + 1) i depth = sort.maxDepth_loop n i depth := by
  induction n with
  | zero =>
    intro i depth hi
    have hi0 : i = 0 := by omega
    subst hi0
    simp [sort.maxDepth_loop]
  | succ n ih =>
    intro i depth hi
    have hl : sort.maxDepth_loop (n + 1 + 1) i depth
        = if i > 0 then sort.maxDepth_loop (n + 1) (i / 2) (depth + 1) else depth := rfl
    have hr : sort.maxDepth_loop (n + 1) i depth
        = if i > 0 then sort.maxDepth_loop n (i / 2) (depth + 1) else depth := rfl
    rw [hl, hr]
    split
    · exact ih (i / 2) (depth + 1) (by omega)
    · rfl

theorem sort.map_getD_range {α : Type} (x : List α) (x0 : α) :
    (List.range x.length).map (fun i => x.getD i x0) = x := by
  apply List.ext_getElem
  · simp
  · intro i h1 h2
    simp [List.getD_eq_getElem?_getD, List.getElem?_eq_getElem h2]

theorem sort.Slice_perm {α : Type} {less : α → α → Bool} {R : α → α → Prop}
    (hA : sort.Agrees less R) (x : List α) : (sort.Slice less x).Perm x := by
  cases x with
  | nil => exact List.Perm.refl _
  | cons x0 xs =>
    unfold sort.Slice
    have hspec := sort.quickSort_func_spec hA (sort.maxDepth (x0 :: xs).length)
      ⟨fun i => (x0 :: xs).getD i x0⟩ 0 (x0 :: xs).length
    have hperm := hspec.1.perm_map_range
    rw [sort.map_getD_range (x0 :: xs) x0] at hperm
    exact hperm

theorem sort.Slice_sorted {α : Type} {less : α → α → Bool} {R : α → α → Prop}
    (hA : sort.Agrees less R) (x : List α) : (sort.Slice less x).Pairwise R := by
  cases x with
  | nil => exact List.Pairwise.nil
  | cons x0 xs =>
    unfold sort.Slice
    have hspec := sort.quickSort_func_spec hA (sort.maxDepth (x0 :: xs).length)
      ⟨fun i => (x0 :: xs).getD i x0⟩ 0 (x0 :: xs).length
    rw [List.pairwise_map]
    refine (List.pairwise_lt_range (x0 :: xs).length).imp_of_mem ?_
    intro i j _ hj hij
    exact hspec.2 i j (Nat.zero_le i) hij (List.mem_range.mp hj)

/-! ## The library split -/

theorem strings.splitChars_ne_nil (sep : Char) (l : List Char) :
    strings.splitChars sep l ≠ [] := by
  cases l with
  | nil => simp [strings.splitChars]
  | cons c cs =>
    unfold strings.splitChars
    split
    · simp
    · split <;> simp

theorem strings.splitChars_sep_not_mem (sep : Char) (l : List Char) :
    ∀ p ∈ strings.splitChars sep l, sep ∉ p := by
  induction l with
  | nil => simp [strings.splitChars]
  | cons c cs ih =>
    unfold strings.splitChars
    split
    · intro p hp
      rcases List.mem_cons.mp hp with rfl | hp
      · simp
      · exact ih p hp
    · rename_i hc
      split
      · rename_i hnil
        exact absurd hnil (strings.splitChars_ne_nil sep cs)
      · rename_i q qs hq
        rw [hq] at ih
        intro p hp
        rcases List.mem_cons.mp hp with rfl | hp
        · intro hmem
          rcases List.mem_cons.mp hmem with h | h
          · exact hc h.symm
          · exact ih q (List.mem_cons_self _ _) h
        · exact ih p (List.mem_cons_of_mem _ hp)

theorem strings.splitChars_intercalate (sep : Char) (l : List Char) :
    [sep].intercalate (strings.splitChars sep l) = l := by
  induction l with
  | nil => simp [strings.splitChars, List.intercalate]
  | cons c cs ih =>
    unfold strings.splitChars
    split
    · rename_i hc
      cases hrest : strings.splitChars sep cs with
      | nil => exact absurd hrest (strings.splitChars_ne_nil sep cs)
      | cons q qs =>
        rw [hrest] at ih
        rw [← ih, hc]
        simp [List.intercalate, List.intersperse]
    · split
      · rename_i hnil
        exact absurd hnil (strings.splitChars_ne_nil sep cs)
      · rename_i q qs hq
        rw [hq] at ih
        rw [← ih]
        cases qs <;> simp [List.intercalate, List.intersperse]

/-! ## Shared facts about the searcher -/

theorem roleSearcher.retained_eq_filter (K : Consts) (conditions : Conditions) (roles : List Role) :
    roleSearcher.retained K conditions roles =
      roles.filter (fun item =>
        roleSearcher.match K conditions.Match item && roleSearcher.fuzzy K conditions.Fuzzy item) := by
  unfold roleSearcher.retained
  split
  · rename_i h
    have hM : conditions.Match = [] := List.length_eq_zero.mp h.1
    have hF : conditions.Fuzzy = [] := List.length_eq_zero.mp h.2
    rw [hM, hF]
    simp [roleSearcher.match, roleSearcher.fuzzy]
  · rfl

theorem roleSearcher.Search_ok (K : Consts) (s : roleSearcher) (ns : String)
    (conditions : Conditions) (orderBy : String) (reverse : Bool) (roles : List Role)
    (hList : s.informers ns = .ok roles) :
    roleSearcher.Search K s ns conditions orderBy reverse =
      .ok (sort.Slice (roleSearcher.less K orderBy reverse)
        (roleSearcher.retained K conditions roles)) := by
  unfold roleSearcher.Search
  rw [hList]

theorem roleSearcher.less_agrees_createTime (K : Consts) :
    sort.Agrees (roleSearcher.less K K.CreateTime false)
      (fun x y => x.CreationTimestamp ≤ y.CreationTimestamp) := by
  refine ⟨fun _ _ _ h1 h2 => le_trans h1 h2, ?_, ?_⟩
  · intro x y h
    simp only [roleSearcher.less, roleSearcher.compare, if_true, Bool.false_eq_true, if_false,
      decide_eq_true_eq] at h
    omega
  · intro x y h
    simp only [roleSearcher.less, roleSearcher.compare, if_true, Bool.false_eq_true, if_false,
      decide_eq_false_iff_not] at h
    omega

theorem roleSearcher.less_agrees_createTime_reverse (K : Consts) :
    sort.Agrees (roleSearcher.less K K.CreateTime true)
      (fun x y => y.CreationTimestamp ≤ x.CreationTimestamp) := by
  refine ⟨fun _ _ _ h1 h2 => le_trans h2 h1, ?_, ?_⟩
  · intro x y h
    simp only [roleSearcher.less, roleSearcher.compare, if_true, decide_eq_true_eq] at h
    omega
  · intro x y h
    simp only [roleSearcher.less, roleSearcher.compare, if_true, decide_eq_false_iff_not] at h
    omega

theorem roleSearcher.less_agrees_name (K : Consts) (orderBy : String)
    (hOrder : orderBy ≠ K.CreateTime) :
    sort.Agrees (roleSearcher.less K orderBy false) (fun x y => x.Name ≤ y.Name) := by
  refine ⟨fun _ _ _ h1 h2 => le_trans h1 h2, ?_, ?_⟩
  · intro x y h
    simpa only [roleSearcher.less, roleSearcher.compare, if_neg hOrder, Bool.false_eq_true,
      if_false, decide_eq_true_eq, strings.Compare_le_iff] using h
  · intro x y h
    simp only [roleSearcher.less, roleSearcher.compare, if_neg hOrder, Bool.false_eq_true,
      if_false, decide_eq_false_iff_not, strings.Compare_le_iff] at h
    exact le_of_lt (not_le.mp h)

theorem roleSearcher.less_agrees_name_reverse (K : Consts) (orderBy : String)
    (hOrder : orderBy ≠ K.CreateTime) :
    sort.Agrees (roleSearcher.less K orderBy true) (fun x y => y.Name ≤ x.Name) := by
  refine ⟨fun _ _ _ h1 h2 => le_trans h2 h1, ?_, ?_⟩
  · intro x y h
    simpa only [roleSearcher.less, roleSearcher.compare, if_neg hOrder, if_true,
      decide_eq_true_eq, strings.Compare_le_iff] using h
  · intro x y h
    simp only [roleSearcher.less, roleSearcher.compare, if_neg hOrder, if_true,
      decide_eq_false_iff_not, strings.Compare_le_iff] at h
    exact le_of_lt (not_le.mp h)

/-- The sort of `Search` rearranges the retained records, whatever `orderBy`
and `reverse` are. -/
theorem roleSearcher.Slice_less_perm (K : Consts) (orderBy : String) (reverse : Bool)
    (l : List Role) : (sort.Slice (roleSearcher.less K orderBy reverse) l).Perm l := by
  by_cases ho : orderBy = K.CreateTime
  · subst ho
    cases reverse with
    | false => exact sort.Slice_perm (roleSearcher.less_agrees_createTime K) l
    | true => exact sort.Slice_perm (roleSearcher.less_agrees_createTime_reverse K) l
  · cases reverse with
    | false => exact sort.Slice_perm (roleSearcher.less_agrees_name K orderBy ho) l
    | true => exact sort.Slice_perm (roleSearcher.less_agrees_name_reverse K orderBy ho) l

theorem reverse_eq_of_sorted_both_ways {β : Type} [LinearOrder β] (key : Role → β)
    (l fwd rev : List Role) (hfwd : fwd.Perm l) (hrev : rev.Perm l)
    (hdistinct : l.Pairwise (fun x y => key x ≠ key y))
    (hup : fwd.Pairwise (fun x y => key x ≤ key y))
    (hdown : rev.Pairwise (fun x y => key y ≤ key x)) :
    rev = fwd.reverse := by
  have hfd : fwd.Pairwise (fun x y => key x ≠ key y) :=
    (hfwd.pairwise_iff (fun h => Ne.symm h)).mpr hdistinct
  have hrd : rev.Pairwise (fun x y => key x ≠ key y) :=
    (hrev.pairwise_iff (fun h => Ne.symm h)).mpr hdistinct
  have hup' : fwd.Pairwise (fun x y => key x < key y) :=
    (hup.and hfd).imp (fun h => lt_of_le_of_ne h.1 h.2)
  have hdown' : rev.Pairwise (fun x y => key y < key x) :=
    (hdown.and hrd).imp (fun h => lt_of_le_of_ne h.1 (Ne.symm h.2))
  have hupr : fwd.reverse.Pairwise (fun x y => key y < key x) := List.pairwise_reverse.mpr hup'
  haveI : IsAntisymm Role (fun x y => key y < key x) :=
    ⟨fun _ _ h1 h2 => absurd h1 (not_lt_of_lt h2)⟩
  have hperm : rev.Perm fwd.reverse := hrev.trans ((List.reverse_perm fwd).trans hfwd).symm
  exact List.eq_of_perm_of_sorted hperm hdown' hupr

theorem roleSearcher.retained_noConditions (K : Consts) (roles : List Role) :
    roleSearcher.retained K noConditions roles = roles := by
  simp [roleSearcher.retained, noConditions]

/-! ## Search: the contract -/

/-- C1: when the store lists `roles`, `Search` returns a permutation of exactly
the candidates that pass both `match` and `fuzzy` (every passing record once
per occurrence, no failing record), and with both maps empty it returns a
permutation of all candidates. -/
theorem Search_returns_exactly_the_passing_records (K : Consts) (s : roleSearcher) (ns : String)
    (conditions : Conditions) (orderBy : String) (reverse : Bool) (roles : List Role)
    (hList : s.informers ns = .ok roles) :
    ∃ out, roleSearcher.Search K s ns conditions orderBy reverse = .ok out ∧
      out.Perm (roles.filter (fun r =>
        roleSearcher.match K conditions.Match r && roleSearcher.fuzzy K conditions.Fuzzy r)) ∧
      (∀ r, out.count r = if roleSearcher.match K conditions.Match r = true ∧
          roleSearcher.fuzzy K conditions.Fuzzy r = true then roles.count r else 0) ∧
      (conditions.Match = [] → conditions.Fuzzy = [] → out.Perm roles) := by
  refine ⟨_, roleSearcher.Search_ok K s ns conditions orderBy reverse roles hList, ?_, ?_, ?_⟩
  · rw [← roleSearcher.retained_eq_filter]
    exact roleSearcher.Slice_less_perm K orderBy reverse _
  · intro r
    rw [(roleSearcher.Slice_less_perm K orderBy reverse _).count_eq,
      roleSearcher.retained_eq_filter]
    split
    · rename_i h
      exact List.count_filter (by simp [h.1, h.2])
    · rename_i h
      refine List.count_eq_zero.mpr (fun hmem => h ?_)
      simpa using (List.mem_filter.mp hmem).2
  · intro hM hF
    refine (roleSearcher.Slice_less_perm K orderBy reverse _).trans ?_
    simp [roleSearcher.retained, hM, hF]

/-- The witness of C1: the two scenario records, no conditions. -/
theorem Search_returns_exactly_the_passing_records_witness :
    storeBA.informers "" = .ok [roleB, roleA] ∧
    ∃ out, roleSearcher.Search exampleConsts storeBA "" noConditions "name" false = .ok out ∧
      out.Perm ([roleB, roleA].filter (fun r =>
        roleSearcher.match exampleConsts noConditions.Match r
          && roleSearcher.fuzzy exampleConsts noConditions.Fuzzy r)) ∧
      (∀ r, out.count r = if roleSearcher.match exampleConsts noConditions.Match r = true ∧
          roleSearcher.fuzzy exampleConsts noConditions.Fuzzy r = true
          then [roleB, roleA].count r else 0) ∧
      (noConditions.Match = [] → noConditions.Fuzzy = [] → out.Perm [roleB, roleA]) :=
  ⟨rfl, Search_returns_exactly_the_passing_records exampleConsts storeBA "" noConditions
    "name" false [roleB, roleA] rfl⟩

/-- C2: with `orderBy` equal to `CreateTime` a successful `Search` returns its
records ordered by creation timestamp: without `reverse` no record is created
after its right neighbour (nor after any later record), with `reverse` no
record is created before its right neighbour (nor before any later record).
Scenario: candidates `[b created 1, a created 2]` with `reverse` give
`[a, b]`. -/
theorem Search_CreateTime_ordered (K : Consts) (s : roleSearcher) (ns : String)
    (conditions : Conditions) (reverse : Bool) (roles : List Role)
    (hList : s.informers ns = .ok roles) :
    (∃ out, roleSearcher.Search K s ns conditions K.CreateTime reverse = .ok out ∧
      (reverse = false →
        out.Chain' (fun x y => x.CreationTimestamp ≤ y.CreationTimestamp) ∧
        out.Pairwise (fun x y => x.CreationTimestamp ≤ y.CreationTimestamp)) ∧
      (reverse = true →
        out.Chain' (fun x y => y.CreationTimestamp ≤ x.CreationTimestamp) ∧
        out.Pairwise (fun x y => y.CreationTimestamp ≤ x.CreationTimestamp))) ∧
    roleSearcher.Search K storeBA ns noConditions K.CreateTime true = .ok [roleA, roleB] := by
  refine ⟨⟨_, roleSearcher.Search_ok K s ns conditions K.CreateTime reverse roles hList, ?_, ?_⟩, ?_⟩
  · intro hr
    subst hr
    have hp := sort.Slice_sorted (roleSearcher.less_agrees_createTime K)
      (roleSearcher.retained K conditions roles)
    exact ⟨hp.chain', hp⟩
  · intro hr
    subst hr
    have hp := sort.Slice_sorted (roleSearcher.less_agrees_createTime_reverse K)
      (roleSearcher.retained K conditions roles)
    exact ⟨hp.chain', hp⟩
  · rw [roleSearcher.Search_ok K storeBA ns noConditions K.CreateTime true [roleB, roleA] rfl,
      roleSearcher.retained_noConditions]
    congr 1
    exact reverse_eq_of_sorted_both_ways (fun r => r.CreationTimestamp) [roleB, roleA]
      [roleB, roleA] _ (List.Perm.refl _)
      (sort.Slice_perm (roleSearcher.less_agrees_createTime_reverse K) _)
      (by simp [roleA, roleB]) (by simp [roleA, roleB])
      (sort.Slice_sorted (roleSearcher.less_agrees_createTime_reverse K) _)

/-- The witness of C2: the scenario of the claim. -/
theorem Search_CreateTime_ordered_witness :
    storeBA.informers "" = .ok [roleB, roleA] ∧
    ((∃ out, roleSearcher.Search exampleConsts storeBA "" noConditions
        exampleConsts.CreateTime true = .ok out ∧
      (true = false →
        out.Chain' (fun x y => x.CreationTimestamp ≤ y.CreationTimestamp) ∧
        out.Pairwise (fun x y => x.CreationTimestamp ≤ y.CreationTimestamp)) ∧
      (true = true →
        out.Chain' (fun x y => y.CreationTimestamp ≤ x.CreationTimestamp) ∧
        out.Pairwise (fun x y => y.CreationTimestamp ≤ x.CreationTimestamp))) ∧
    roleSearcher.Search exampleConsts storeBA "" noConditions exampleConsts.CreateTime true
      = .ok [roleA, roleB]) :=
  ⟨rfl, Search_CreateTime_ordered exampleConsts storeBA "" noConditions true [roleB, roleA] rfl⟩

/-- C3: with `orderBy` equal to `Name` or to any string other than
`CreateTime`, a successful `Search` returns its records in lexicographic
order of name, non-decreasing without `reverse` and non-increasing with it,
although `compare` is the non-strict `a.Name <= b.Name`. Scenario: candidates
`[b, a]` without `reverse` give `[a, b]`. -/
theorem Search_Name_ordered (K : Consts) (s : roleSearcher) (ns : String)
    (conditions : Conditions) (orderBy : String) (reverse : Bool) (roles : List Role)
    (hOrder : orderBy ≠ K.CreateTime)
    (hList : s.informers ns = .ok roles) :
    (∃ out, roleSearcher.Search K s ns conditions orderBy reverse = .ok out ∧
      (reverse = false →
        out.Chain' (fun x y => x.Name ≤ y.Name) ∧ out.Pairwise (fun x y => x.Name ≤ y.Name)) ∧
      (reverse = true →
        out.Chain' (fun x y => y.Name ≤ x.Name) ∧ out.Pairwise (fun x y => y.Name ≤ x.Name))) ∧
    roleSearcher.Search K storeBA ns noConditions orderBy false = .ok [roleA, roleB] := by
  refine ⟨⟨_, roleSearcher.Search_ok K s ns conditions orderBy reverse roles hList, ?_, ?_⟩, ?_⟩
  · intro hr
    subst hr
    have hp := sort.Slice_sorted (roleSearcher.less_agrees_name K orderBy hOrder)
      (roleSearcher.retained K conditions roles)
    exact ⟨hp.chain', hp⟩
  · intro hr
    subst hr
    have hp := sort.Slice_sorted (roleSearcher.less_agrees_name_reverse K orderBy hOrder)
      (roleSearcher.retained K conditions roles)
    exact ⟨hp.chain', hp⟩
  · rw [roleSearcher.Search_ok K storeBA ns noConditions orderBy false [roleB, roleA] rfl,
      roleSearcher.retained_noConditions]
    congr 1
    have hab : roleA.Name ≤ roleB.Name :=
      (strings.Compare_le_iff roleA.Name roleB.Name).mp (by decide)
    have hrev := reverse_eq_of_sorted_both_ways (fun r => r.Name) [roleB, roleA]
      (sort.Slice (roleSearcher.less K orderBy false) [roleB, roleA]) [roleB, roleA]
      (sort.Slice_perm (roleSearcher.less_agrees_name K orderBy hOrder) _) (List.Perm.refl _)
      (by simp [roleA, roleB])
      (sort.Slice_sorted (roleSearcher.less_agrees_name K orderBy hOrder) _)
      (by simpa using hab)
    have := congrArg List.reverse hrev
    rw [List.reverse_reverse] at this
    rw [← this]
    rfl

/-- The witness of C3: the scenario of the claim, ordered by `Name`. -/
theorem Search_Name_ordered_witness :
    exampleConsts.Name ≠ exampleConsts.CreateTime ∧
    storeBA.informers "" = .ok [roleB, roleA] ∧
    ((∃ out, roleSearcher.Search exampleConsts storeBA "" noConditions
        exampleConsts.Name false = .ok out ∧
      (false = false →
        out.Chain' (fun x y => x.Name ≤ y.Name) ∧ out.Pairwise (fun x y => x.Name ≤ y.Name)) ∧
      (false = true →
        out.Chain' (fun x y => y.Name ≤ x.Name) ∧ out.Pairwise (fun x y => y.Name ≤ x.Name))) ∧
    roleSearcher.Search exampleConsts storeBA "" noConditions exampleConsts.Name false
      = .ok [roleA, roleB]) :=
  ⟨by decide, rfl,
    Search_Name_ordered exampleConsts storeBA "" noConditions exampleConsts.Name false
      [roleB, roleA] (by decide) rfl⟩

/-- C4: `Search` fails exactly when the lister fails. An error of the lister
is returned unchanged and without a result; when the lister succeeds `Search`
returns a sequence and no error, whatever the conditions, `orderBy` and
`reverse`. -/
theorem Search_fails_iff_List_fails (K : Consts) (s : roleSearcher) (ns : String)
    (conditions : Conditions) (orderBy : String) (reverse : Bool) :
    (∀ e, s.informers ns = .error e →
      roleSearcher.Search K s ns conditions orderBy reverse = .error e) ∧
    (∀ roles, s.informers ns = .ok roles →
      ∃ out, roleSearcher.Search K s ns conditions orderBy reverse = .ok out) ∧
    (∀ e, roleSearcher.Search K s ns conditions orderBy reverse = .error e ↔
      s.informers ns = .error e) := by
  refine ⟨?_, ?_, ?_⟩
  · intro e he
    simp [roleSearcher.Search, he]
  · intro roles hroles
    exact ⟨_, roleSearcher.Search_ok K s ns conditions orderBy reverse roles hroles⟩
  · intro e
    unfold roleSearcher.Search
    cases h : s.informers ns with
    | error e2 => simp
    | ok roles => simp

/-! ## The exact-match conditions -/

/-- C5: `match` with the single condition `Name: v` is true exactly when the
record's name is one of the pieces of `v` split at the character `|` (the
pieces hold no `|` and give `v` back when joined by `|`); so `Name: "a|b"`
passes exactly the records named `a` or `b`. -/
theorem match_Name_iff_name_among_pieces (K : Consts) (r : Role) (v : String) :
    (roleSearcher.match K [(K.Name, v)] r = true ↔ r.Name ∈ strings.Split v '|') ∧
    ['|'].intercalate ((strings.Split v '|').map String.data) = v.data ∧
    (∀ p ∈ strings.Split v '|', '|' ∉ p.data) ∧
    (roleSearcher.match K [(K.Name, "a|b")] r = true ↔ r.Name = "a" ∨ r.Name = "b") := by
  have key : ∀ w : String,
      roleSearcher.match K [(K.Name, w)] r = true ↔ r.Name ∈ strings.Split w '|' := by
    intro w
    simp [roleSearcher.match, sliceutil.HasString]
  refine ⟨key v, ?_, ?_, ?_⟩
  · simpa [strings.Split, Function.comp_def] using strings.splitChars_intercalate '|' v.data
  · intro p hp
    obtain ⟨q, hq, rfl⟩ := List.mem_map.mp hp
    exact strings.splitChars_sep_not_mem '|' v.data q hq
  rw [key]
  have hsplit : strings.Split "a|b" '|' = ["a", "b"] := by decide
  rw [hsplit]
  simp

/-- C6: for a key `k` other than `Name`, `Keyword` and the user-facing key,
`match` with the single condition `k: v` is true exactly when the record has
the label `k` and its value is `v`; a record without the label fails, also
for the empty `v`. -/
theorem match_other_key_iff_label_equal (K : Consts) (r : Role) (k v : String)
    (hName : k ≠ K.Name) (hKeyword : k ≠ K.Keyword) (hUserFacing : k ≠ K.UserFacing) :
    (roleSearcher.match K [(k, v)] r = true ↔ r.Labels.lookup k = some v) ∧
    (r.Labels.lookup k = none → roleSearcher.match K [(k, "")] r = false) := by
  constructor
  · cases h : r.Labels.lookup k with
    | none => simp [roleSearcher.match, hName, hKeyword, hUserFacing, h]
    | some val => simp [roleSearcher.match, hName, hKeyword, hUserFacing, h]
  · intro h
    simp [roleSearcher.match, hName, hKeyword, hUserFacing, h]

/-- The witness of C6: the key `app` on a record labelled `app=web`. -/
theorem match_other_key_iff_label_equal_witness :
    "app" ≠ exampleConsts.Name ∧ "app" ≠ exampleConsts.Keyword ∧
    "app" ≠ exampleConsts.UserFacing ∧
    ((roleSearcher.match exampleConsts [("app", "web")] ⟨"r", [("app", "web")], [], 0⟩ = true ↔
      (Role.mk "r" [("app", "web")] [] 0).Labels.lookup "app" = some "web") ∧
    ((Role.mk "r" [("app", "web")] [] 0).Labels.lookup "app" = none →
      roleSearcher.match exampleConsts [("app", "")] ⟨"r", [("app", "web")], [], 0⟩ = false)) :=
  ⟨by decide, by decide, by decide,
    match_other_key_iff_label_equal exampleConsts ⟨"r", [("app", "web")], [], 0⟩ "app" "web"
      (by decide) (by decide) (by decide)⟩

/-- C7: `match` with the single condition `Keyword: v` is true exactly when
the record's name contains `v`, or `SearchFuzzy` with the empty key finds `v`
in the labels, or it finds `v` in the annotations; a record whose name
contains `v` therefore passes whatever its labels and annotations are. -/
theorem match_Keyword_iff (K : Consts) (r : Role) (v : String)
    (hKeyword : K.Keyword ≠ K.Name) :
    (roleSearcher.match K [(K.Keyword, v)] r = true ↔
      (v.data <:+: r.Name.data ∨ v1alpha2.SearchFuzzy r.Labels "" v = true ∨
        v1alpha2.SearchFuzzy r.Annotations "" v = true)) ∧
    (v.data <:+: r.Name.data → roleSearcher.match K [(K.Keyword, v)] r = true) := by
  have key : roleSearcher.match K [(K.Keyword, v)] r = true ↔
      (v.data <:+: r.Name.data ∨ v1alpha2.SearchFuzzy r.Labels "" v = true ∨
        v1alpha2.SearchFuzzy r.Annotations "" v = true) := by
    simp only [roleSearcher.match, if_neg hKeyword, if_true, strings.Contains]
    by_cases h1 : v.data <:+: r.Name.data <;>
    cases h2 : v1alpha2.SearchFuzzy r.Labels "" v <;>
    cases h3 : v1alpha2.SearchFuzzy r.Annotations "" v <;> simp [h1]
  exact ⟨key, fun h => key.mpr (Or.inl h)⟩

/-- The witness of C7: the record named `foobar` without labels or
annotations, keyword `foo`. -/
theorem match_Keyword_iff_witness :
    exampleConsts.Keyword ≠ exampleConsts.Name ∧
    ((roleSearcher.match exampleConsts [(exampleConsts.Keyword, "foo")] ⟨"foobar", [], [], 0⟩ = true ↔
      ("foo".data <:+: (Role.mk "foobar" [] [] 0).Name.data ∨
        v1alpha2.SearchFuzzy (Role.mk "foobar" [] [] 0).Labels "" "foo" = true ∨
        v1alpha2.SearchFuzzy (Role.mk "foobar" [] [] 0).Annotations "" "foo" = true)) ∧
    ("foo".data <:+: (Role.mk "foobar" [] [] 0).Name.data →
      roleSearcher.match exampleConsts [(exampleConsts.Keyword, "foo")] ⟨"foobar", [], [], 0⟩ = true)) :=
  ⟨by decide, match_Keyword_iff exampleConsts ⟨"foobar", [], [], 0⟩ "foo" (by decide)⟩

/-- C8: `match` with the single user-facing condition of value `v` returns
`isUserFacingRole r` when `v` is the string `true` and returns true for every
other `v`, among them `false`, `True` and the empty string; with `true` a
record without the creator annotation fails. -/
theorem match_UserFacing_only_true_filters (K : Consts) (r : Role) (v : String)
    (hName : K.UserFacing ≠ K.Name) (hKeyword : K.UserFacing ≠ K.Keyword) :
    roleSearcher.match K [(K.UserFacing, v)] r
      = (if v = "true" then isUserFacingRole K r else true) ∧
    roleSearcher.match K [(K.UserFacing, "true")] r = isUserFacingRole K r ∧
    (v ≠ "true" → roleSearcher.match K [(K.UserFacing, v)] r = true) ∧
    roleSearcher.match K [(K.UserFacing, "false")] r = true ∧
    roleSearcher.match K [(K.UserFacing, "True")] r = true ∧
    roleSearcher.match K [(K.UserFacing, "")] r = true ∧
    (r.Annotations.lookup K.CreatorAnnotationKey = none →
      roleSearcher.match K [(K.UserFacing, "true")] r = false) := by
  have key : ∀ w : String, roleSearcher.match K [(K.UserFacing, w)] r
      = (if w = "true" then isUserFacingRole K r else true) := by
    intro w
    by_cases hw : w = "true"
    · cases hu : isUserFacingRole K r <;>
        simp [roleSearcher.match, hName, hKeyword, hw, hu]
    · simp [roleSearcher.match, hName, hKeyword, hw]
  refine ⟨key v, ?_, ?_, ?_, ?_, ?_, ?_⟩
  · rw [key]; simp
  · intro hv; rw [key, if_neg hv]
  · rw [key]; simp
  · rw [key]; simp
  · rw [key]; simp
  · intro h
    rw [key]
    simp [isUserFacingRole, GoMap.index, h]

/-- The witness of C8: the value `true` on a record without annotations. -/
theorem match_UserFacing_only_true_filters_witness :
    exampleConsts.UserFacing ≠ exampleConsts.Name ∧
    exampleConsts.UserFacing ≠ exampleConsts.Keyword ∧
    roleSearcher.match exampleConsts [(exampleConsts.UserFacing, "true")] roleA = false :=
  ⟨by decide, by decide,
    (match_UserFacing_only_true_filters exampleConsts roleA "true"
      (by decide) (by decide)).2.2.2.2.2.2 rfl⟩

/-! ## The fuzzy conditions -/

theorem roleSearcher.fuzzy_false_of_Annotation (K : Consts) (f : GoMap) (r : Role)
    (hName : K.Annotation ≠ K.Name) (hLabel : K.Annotation ≠ K.Label)
    (hKey : ∃ v, (K.Annotation, v) ∈ f) : roleSearcher.fuzzy K f r = false := by
  induction f with
  | nil => simp at hKey
  | cons e rest ih =>
    obtain ⟨k, w⟩ := e
    obtain ⟨v, hv⟩ := hKey
    unfold roleSearcher.fuzzy
    by_cases hk : k = K.Annotation
    · subst hk
      simp [hName, hLabel]
    · have hrest : roleSearcher.fuzzy K rest r = false := by
        apply ih
        rcases List.mem_cons.mp hv with h | h
        · exact absurd (congrArg Prod.fst h).symm hk
        · exact ⟨v, h⟩
      simp only [hrest, hk, if_false]
      split <;> split <;> simp

/-- C9: when the fuzzy map has the key `Annotation`, with any value and
whatever else the two maps hold, `fuzzy` is false for every record, and a
successful `Search` returns the empty sequence whatever the records'
annotations are. -/
theorem fuzzy_Annotation_excludes_every_record (K : Consts) (s : roleSearcher) (ns : String)
    (conditions : Conditions) (orderBy : String) (reverse : Bool)
    (hName : K.Annotation ≠ K.Name) (hLabel : K.Annotation ≠ K.Label)
    (hKey : ∃ v, (K.Annotation, v) ∈ conditions.Fuzzy) :
    (∀ r, roleSearcher.fuzzy K conditions.Fuzzy r = false) ∧
    (∀ roles, s.informers ns = .ok roles →
      roleSearcher.Search K s ns conditions orderBy reverse = .ok []) := by
  have hf : ∀ r, roleSearcher.fuzzy K conditions.Fuzzy r = false :=
    fun r => roleSearcher.fuzzy_false_of_Annotation K conditions.Fuzzy r hName hLabel hKey
  refine ⟨hf, ?_⟩
  intro roles hroles
  rw [roleSearcher.Search_ok K s ns conditions orderBy reverse roles hroles,
    roleSearcher.retained_eq_filter]
  have hnil : roles.filter (fun item => roleSearcher.match K conditions.Match item
      && roleSearcher.fuzzy K conditions.Fuzzy item) = [] := by
    simp [hf]
  rw [hnil]
  rfl

/-- The witness of C9: the fuzzy map `annotation: x` against a record whose
annotation value is `x`. -/
theorem fuzzy_Annotation_excludes_every_record_witness :
    exampleConsts.Annotation ≠ exampleConsts.Name ∧
    exampleConsts.Annotation ≠ exampleConsts.Label ∧
    (∃ v, (exampleConsts.Annotation, v) ∈ (Conditions.mk [] [("annotation", "x")]).Fuzzy) ∧
    ((∀ r, roleSearcher.fuzzy exampleConsts (Conditions.mk [] [("annotation", "x")]).Fuzzy r
      = false) ∧
    (∀ roles, (roleSearcher.mk (fun _ => .ok [⟨"r", [], [("note", "x")], 0⟩])).informers ""
        = .ok roles →
      roleSearcher.Search exampleConsts ⟨fun _ => .ok [⟨"r", [], [("note", "x")], 0⟩]⟩ ""
        ⟨[], [("annotation", "x")]⟩ "name" false = .ok [])) :=
  ⟨by decide, by decide, ⟨"x", by decide⟩,
    fuzzy_Annotation_excludes_every_record exampleConsts
      ⟨fun _ => .ok [⟨"r", [], [("note", "x")], 0⟩]⟩ "" ⟨[], [("annotation", "x")]⟩ "name" false
      (by decide) (by decide) ⟨"x", by decide⟩⟩

/-- C10: `fuzzy` with the single condition `Label: v` is true exactly when
some label of the record, under whatever key, has a value that contains
`v`. -/
theorem fuzzy_Label_iff_some_label_value_contains (K : Consts) (r : Role) (v : String)
    (hLabel : K.Label ≠ K.Name) :
    roleSearcher.fuzzy K [(K.Label, v)] r = true ↔
      ∃ key val, (key, val) ∈ r.Labels ∧ v.data <:+: val.data := by
  simp [roleSearcher.fuzzy, hLabel, v1alpha2.SearchFuzzy, strings.Contains]

/-- The witness of C10: the value `eb` occurs in the label `app=web`. -/
theorem fuzzy_Label_iff_some_label_value_contains_witness :
    exampleConsts.Label ≠ exampleConsts.Name ∧
    (roleSearcher.fuzzy exampleConsts [(exampleConsts.Label, "eb")] ⟨"r", [("app", "web")], [], 0⟩
        = true ↔
      ∃ key val, (key, val) ∈ (Role.mk "r" [("app", "web")] [] 0).Labels ∧
        "eb".data <:+: val.data) :=
  ⟨by decide,
    fuzzy_Label_iff_some_label_value_contains exampleConsts ⟨"r", [("app", "web")], [], 0⟩ "eb"
      (by decide)⟩


/-- C11: `fuzzy` with the single condition `Name: v` is true exactly when the
record's name contains `v` or the value of its display-name annotation
contains `v`; a record without that annotation counts as having the empty
string there, so the annotation lets it pass only for the empty `v`. -/
theorem fuzzy_Name_iff_name_or_display_name_contains (K : Consts) (r : Role) (v : String) :
    (roleSearcher.fuzzy K [(K.Name, v)] r = true ↔
      (v.data <:+: r.Name.data ∨
        v.data <:+: ((r.Annotations.lookup K.DisplayNameAnnotationKey).getD "").data)) ∧
    (r.Annotations.lookup K.DisplayNameAnnotationKey = none →
      (roleSearcher.fuzzy K [(K.Name, v)] r = true ↔ (v.data <:+: r.Name.data ∨ v = ""))) := by
  have key : roleSearcher.fuzzy K [(K.Name, v)] r = true ↔
      (v.data <:+: r.Name.data ∨
        v.data <:+: ((r.Annotations.lookup K.DisplayNameAnnotationKey).getD "").data) := by
    simp only [roleSearcher.fuzzy, if_true, strings.Contains, GoMap.index]
    by_cases h1 : v.data <:+: r.Name.data <;>
    by_cases h2 : v.data <:+: ((r.Annotations.lookup K.DisplayNameAnnotationKey).getD "").data <;>
    simp [h1, h2]
  refine ⟨key, ?_⟩
  intro hnone
  rw [key, hnone]
  have hempty : v.data <:+: ((none : Option String).getD "").data ↔ v = "" := by
    simp only [Option.getD_none]
    constructor
    · intro h
      have hnil : v.data = [] := List.eq_nil_of_infix_nil h
      exact String.ext hnil
    · intro h
      subst h
      exact List.infix_refl _
  rw [hempty]

/-- C12: `compare a b orderBy` is "`a` was created strictly before `b`" for
`CreateTime` and "`a.Name ≤ b.Name`" in lexicographic order for `Name` and
every other `orderBy`; two records with equal names therefore compare true in
both directions under a non-`CreateTime` `orderBy`. -/
theorem compare_eq_before_or_name_le (K : Consts) (a b : Role) (orderBy : String) :
    roleSearcher.compare K a b K.CreateTime
      = decide (a.CreationTimestamp < b.CreationTimestamp) ∧
    (orderBy ≠ K.CreateTime →
      roleSearcher.compare K a b orderBy = decide (a.Name ≤ b.Name)) ∧
    (K.Name ≠ K.CreateTime →
      roleSearcher.compare K a b K.Name = decide (a.Name ≤ b.Name)) ∧
    (orderBy ≠ K.CreateTime → a.Name = b.Name →
      roleSearcher.compare K a b orderBy = true ∧ roleSearcher.compare K b a orderBy = true) := by
  have hname : ∀ (x y : Role) (o : String), o ≠ K.CreateTime →
      roleSearcher.compare K x y o = decide (x.Name ≤ y.Name) := by
    intro x y o ho
    simp only [roleSearcher.compare, if_neg ho, strings.Compare_le_iff]
  refine ⟨by simp [roleSearcher.compare], hname a b orderBy, hname a b K.Name, ?_⟩
  intro ho hab
  rw [hname a b orderBy ho, hname b a orderBy ho, hab]
  simp

/-- The witness of C12: the two scenario records ordered by `name`, and a
record against itself. -/
theorem compare_eq_before_or_name_le_witness :
    roleSearcher.compare exampleConsts roleA roleB exampleConsts.CreateTime
      = decide (roleA.CreationTimestamp < roleB.CreationTimestamp) ∧
    roleSearcher.compare exampleConsts roleA roleB "name" = decide (roleA.Name ≤ roleB.Name) ∧
    (roleSearcher.compare exampleConsts roleA roleA "name" = true ∧
      roleSearcher.compare exampleConsts roleA roleA "name" = true) :=
  ⟨(compare_eq_before_or_name_le exampleConsts roleA roleB "name").1,
    (compare_eq_before_or_name_le exampleConsts roleA roleB "name").2.1 (by decide),
    (compare_eq_before_or_name_le exampleConsts roleA roleA "name").2.2.2 (by decide) rfl⟩

/-! ## The condition maps as conjunctions -/

theorem roleSearcher.match_cons (K : Consts) (k v : String) (rest : GoMap) (r : Role) :
    roleSearcher.match K ((k, v) :: rest) r
      = (matchTest K k v r && roleSearcher.match K rest r) := by
  rw [roleSearcher.match]
  generalize roleSearcher.match K rest r = tail
  unfold matchTest
  by_cases h1 : k = K.Name
  · rw [if_pos h1, if_pos h1]
    by_cases hm : r.Name ∈ strings.Split v '|' <;> simp [sliceutil.HasString, hm]
  · rw [if_neg h1, if_neg h1]
    by_cases h2 : k = K.Keyword
    · rw [if_pos h2, if_pos h2]
      cases strings.Contains r.Name v <;> cases v1alpha2.SearchFuzzy r.Labels "" v <;>
        cases v1alpha2.SearchFuzzy r.Annotations "" v <;> simp
    · rw [if_neg h2, if_neg h2]
      by_cases h3 : k = K.UserFacing
      · rw [if_pos h3, if_pos h3]
        by_cases hv : v = "true"
        · cases hu : isUserFacingRole K r <;> simp [hv]
        · simp [hv]
      · rw [if_neg h3, if_neg h3]
        cases hl : r.Labels.lookup k with
        | none => simp
        | some val =>
          by_cases hval : val = v <;> simp [hval]

theorem roleSearcher.match_eq_all (K : Consts) (m : GoMap) (r : Role) :
    roleSearcher.match K m r = m.all (fun e => matchTest K e.1 e.2 r) := by
  induction m with
  | nil => simp [roleSearcher.match]
  | cons e rest ih =>
    obtain ⟨k, v⟩ := e
    rw [List.all_cons, ← ih, roleSearcher.match_cons]

theorem roleSearcher.fuzzy_cons (K : Consts) (k v : String) (rest : GoMap) (r : Role) :
    roleSearcher.fuzzy K ((k, v) :: rest) r
      = (roleSearcher.fuzzyEntry K k v r && roleSearcher.fuzzy K rest r) := by
  rw [roleSearcher.fuzzy]
  generalize roleSearcher.fuzzy K rest r = tail
  unfold roleSearcher.fuzzyEntry
  by_cases h1 : k = K.Name
  · rw [if_pos h1, if_pos h1]
    cases strings.Contains r.Name v <;>
      cases strings.Contains (r.Annotations.index K.DisplayNameAnnotationKey) v <;> simp
  · rw [if_neg h1, if_neg h1]
    by_cases h2 : k = K.Label
    · rw [if_pos h2, if_pos h2]
      cases v1alpha2.SearchFuzzy r.Labels "" v <;> simp
    · rw [if_neg h2, if_neg h2]
      by_cases h3 : k = K.Annotation
      · rw [if_pos h3, if_pos h3]
        cases v1alpha2.SearchFuzzy r.Annotations "" v <;> simp
      · rw [if_neg h3, if_neg h3]
        cases v1alpha2.SearchFuzzy r.Labels k v <;> simp

theorem roleSearcher.fuzzy_eq_all (K : Consts) (f : GoMap) (r : Role) :
    roleSearcher.fuzzy K f r = f.all (fun e => roleSearcher.fuzzyEntry K e.1 e.2 r) := by
  induction f with
  | nil => simp [roleSearcher.fuzzy]
  | cons e rest ih =>
    obtain ⟨k, v⟩ := e
    rw [List.all_cons, ← ih, roleSearcher.fuzzy_cons]

theorem all_eq_of_perm {α : Type} (p : α → Bool) (l₁ l₂ : List α) (h : l₁.Perm l₂) :
    l₁.all p = l₂.all p := by
  rw [Bool.eq_iff_iff, List.all_eq_true, List.all_eq_true]
  exact ⟨fun h1 x hx => h1 x (h.mem_iff.mpr hx), fun h2 x hx => h2 x (h.mem_iff.mp hx)⟩

/-- C13: `match m r` is true exactly when every entry of `m` passes its
per-key test (`matchTest`: name membership, keyword search, user-facing flag,
label equality for any other key); the empty map is true for every record and
one failing entry makes the result false whatever the other entries are. -/
theorem match_iff_every_entry_passes (K : Consts) (m : GoMap) (r : Role) :
    (roleSearcher.match K m r = true ↔ ∀ e ∈ m, matchTest K e.1 e.2 r = true) ∧
    roleSearcher.match K [] r = true ∧
    (∀ e ∈ m, matchTest K e.1 e.2 r = false → roleSearcher.match K m r = false) := by
  have key : roleSearcher.match K m r = true ↔ ∀ e ∈ m, matchTest K e.1 e.2 r = true := by
    rw [roleSearcher.match_eq_all, List.all_eq_true]
  refine ⟨key, by simp [roleSearcher.match], ?_⟩
  intro e he hfail
  cases hm : roleSearcher.match K m r with
  | false => rfl
  | true =>
    have := key.mp hm e he
    rw [hfail] at this
    exact absurd this (by decide)

/-- C14: `fuzzy f r` is true exactly when `f` has no `Annotation` key and
every entry passes its per-key test (`fuzzyTest`: the name test for `Name`,
`SearchFuzzy` on the labels with the empty key for `Label`, `SearchFuzzy` on
the labels with the condition key and value for any other key); the empty map
is true for every record. -/
theorem fuzzy_iff_no_Annotation_and_every_entry_passes (K : Consts) (f : GoMap) (r : Role)
    (hName : K.Annotation ≠ K.Name) (hLabel : K.Annotation ≠ K.Label) :
    (roleSearcher.fuzzy K f r = true ↔
      (∀ v, (K.Annotation, v) ∉ f) ∧ ∀ e ∈ f, fuzzyTest K e.1 e.2 r = true) ∧
    roleSearcher.fuzzy K [] r = true := by
  refine ⟨?_, by simp [roleSearcher.fuzzy]⟩
  rw [roleSearcher.fuzzy_eq_all, List.all_eq_true]
  have hentry : ∀ k v, roleSearcher.fuzzyEntry K k v r = true ↔
      (k ≠ K.Annotation ∧ fuzzyTest K k v r = true) := by
    intro k v
    unfold roleSearcher.fuzzyEntry fuzzyTest
    by_cases h1 : k = K.Name
    · have h3 : k ≠ K.Annotation := fun h => hName (h.symm.trans h1)
      rw [if_pos h1, if_pos h1]
      simp [h3]
    · rw [if_neg h1, if_neg h1]
      by_cases h2 : k = K.Label
      · have h3 : k ≠ K.Annotation := fun h => hLabel (h.symm.trans h2)
        rw [if_pos h2, if_pos h2]
        simp [h3]
      · rw [if_neg h2, if_neg h2]
        by_cases h3 : k = K.Annotation
        · rw [if_pos h3]
          simp [h3]
        · rw [if_neg h3]
          simp [h3]
  constructor
  · intro h
    refine ⟨?_, ?_⟩
    · intro v hv
      exact ((hentry K.Annotation v).mp (h (K.Annotation, v) hv)).1 rfl
    · intro e he
      exact ((hentry e.1 e.2).mp (h e he)).2
  · rintro ⟨hno, hall⟩ e he
    refine (hentry e.1 e.2).mpr ⟨?_, hall e he⟩
    intro hk
    apply hno e.2
    rw [← hk]
    exact he

/-- The witness of C14: the fuzzy map `app: we` against a record labelled
`app=web`. -/
theorem fuzzy_iff_no_Annotation_and_every_entry_passes_witness :
    exampleConsts.Annotation ≠ exampleConsts.Name ∧
    exampleConsts.Annotation ≠ exampleConsts.Label ∧
    ((roleSearcher.fuzzy exampleConsts [("app", "we")] ⟨"r", [("app", "web")], [], 0⟩ = true ↔
      (∀ v, (exampleConsts.Annotation, v) ∉ [("app", "we")]) ∧
        ∀ e ∈ [("app", "we")], fuzzyTest exampleConsts e.1 e.2 ⟨"r", [("app", "web")], [], 0⟩ = true) ∧
    roleSearcher.fuzzy exampleConsts [] ⟨"r", [("app", "web")], [], 0⟩ = true) :=
  ⟨by decide, by decide,
    fuzzy_iff_no_Annotation_and_every_entry_passes exampleConsts [("app", "we")]
      ⟨"r", [("app", "web")], [], 0⟩ (by decide) (by decide)⟩

/-- C15: `match` and `fuzzy` give the same boolean for every order in which
the entries of a condition map are visited, and `Search` gives the same
outcome, in the same order, for condition maps that differ only in the order
of their entries; with the same maps this is the repeated call. -/
theorem Search_independent_of_map_order (K : Consts) (s : roleSearcher) (ns : String)
    (m m' f f' : GoMap) (orderBy : String) (reverse : Bool)
    (hMatch : m.Perm m') (hFuzzy : f.Perm f') :
    (∀ r, roleSearcher.match K m r = roleSearcher.match K m' r) ∧
    (∀ r, roleSearcher.fuzzy K f r = roleSearcher.fuzzy K f' r) ∧
    roleSearcher.Search K s ns ⟨m, f⟩ orderBy reverse
      = roleSearcher.Search K s ns ⟨m', f'⟩ orderBy reverse := by
  have hm : ∀ r, roleSearcher.match K m r = roleSearcher.match K m' r := by
    intro r
    rw [roleSearcher.match_eq_all, roleSearcher.match_eq_all]
    exact all_eq_of_perm _ m m' hMatch
  have hf : ∀ r, roleSearcher.fuzzy K f r = roleSearcher.fuzzy K f' r := by
    intro r
    rw [roleSearcher.fuzzy_eq_all, roleSearcher.fuzzy_eq_all]
    exact all_eq_of_perm _ f f' hFuzzy
  refine ⟨hm, hf, ?_⟩
  unfold roleSearcher.Search
  cases s.informers ns with
  | error e => rfl
  | ok roles =>
    have hret : roleSearcher.retained K ⟨m, f⟩ roles = roleSearcher.retained K ⟨m', f'⟩ roles := by
      rw [roleSearcher.retained_eq_filter, roleSearcher.retained_eq_filter]
      congr 1
      funext item
      simp only [hm item, hf item]
    simp only [hret]

/-- The witness of C15: two exact-match entries visited in either order. -/
theorem Search_independent_of_map_order_witness :
    [("app", "web"), ("name", "a|b")].Perm [("name", "a|b"), ("app", "web")] ∧
    ([] : GoMap).Perm [] ∧
    ((∀ r, roleSearcher.match exampleConsts [("app", "web"), ("name", "a|b")] r
        = roleSearcher.match exampleConsts [("name", "a|b"), ("app", "web")] r) ∧
    (∀ r, roleSearcher.fuzzy exampleConsts [] r = roleSearcher.fuzzy exampleConsts [] r) ∧
    roleSearcher.Search exampleConsts storeBA "" ⟨[("app", "web"), ("name", "a|b")], []⟩ "name" false
      = roleSearcher.Search exampleConsts storeBA "" ⟨[("name", "a|b"), ("app", "web")], []⟩
          "name" false) :=
  ⟨List.Perm.swap _ _ _, List.Perm.refl _,
    Search_independent_of_map_order exampleConsts storeBA ""
      [("app", "web"), ("name", "a|b")] [("name", "a|b"), ("app", "web")] [] [] "name" false
      (List.Perm.swap _ _ _) (List.Perm.refl _)⟩

/-! ## The comparator as a relation -/

theorem roleSearcher.compare_createTime (K : Consts) (a b : Role) :
    roleSearcher.compare K a b K.CreateTime
      = decide (a.CreationTimestamp < b.CreationTimestamp) := by
  simp [roleSearcher.compare]

theorem roleSearcher.compare_name (K : Consts) (a b : Role) (orderBy : String)
    (hOrder : orderBy ≠ K.CreateTime) :
    roleSearcher.compare K a b orderBy = decide (a.Name ≤ b.Name) := by
  simp only [roleSearcher.compare, if_neg hOrder, strings.Compare_le_iff]

/-- The counterexample to C16: ordered by `name`, a record compares true
against itself, so `compare` is not irreflexive for every `orderBy`. -/
theorem compare_irreflexive_counterexample :
    roleSearcher.compare exampleConsts roleA roleA "name" = true ∧
    ¬ (∀ (orderBy : String) (a : Role), roleSearcher.compare exampleConsts a a orderBy = false) := by
  have h : roleSearcher.compare exampleConsts roleA roleA "name" = true := by decide
  refine ⟨h, fun hall => ?_⟩
  rw [hall "name" roleA] at h
  exact absurd h (by decide)

/-- C16 (amended): for every `orderBy` the relation `compare` is transitive
and its incomparability relation is transitive; for `CreateTime` it is also
irreflexive, hence a strict weak ordering, while for every other `orderBy` it
is reflexive: `compare a a orderBy` is true for every record. -/
theorem compare_strict_weak_order_only_for_CreateTime (K : Consts) (orderBy : String) :
    (∀ a, roleSearcher.compare K a a K.CreateTime = false) ∧
    (∀ a b c, roleSearcher.compare K a b orderBy = true →
      roleSearcher.compare K b c orderBy = true → roleSearcher.compare K a c orderBy = true) ∧
    (∀ a b c,
      (roleSearcher.compare K a b orderBy = false ∧ roleSearcher.compare K b a orderBy = false) →
      (roleSearcher.compare K b c orderBy = false ∧ roleSearcher.compare K c b orderBy = false) →
      (roleSearcher.compare K a c orderBy = false ∧ roleSearcher.compare K c a orderBy = false)) ∧
    (orderBy ≠ K.CreateTime → ∀ a, roleSearcher.compare K a a orderBy = true) := by
  refine ⟨?_, ?_, ?_, ?_⟩
  · intro a
    simp [roleSearcher.compare_createTime]
  · intro a b c
    by_cases ho : orderBy = K.CreateTime
    · subst ho
      simp only [roleSearcher.compare_createTime, decide_eq_true_eq]
      exact fun h1 h2 => lt_trans h1 h2
    · simp only [roleSearcher.compare_name K _ _ orderBy ho, decide_eq_true_eq]
      exact fun h1 h2 => le_trans h1 h2
  · intro a b c
    by_cases ho : orderBy = K.CreateTime
    · subst ho
      simp only [roleSearcher.compare_createTime, decide_eq_false_iff_not]
      omega
    · simp only [roleSearcher.compare_name K _ _ orderBy ho, decide_eq_false_iff_not]
      intro h1 _
      exact absurd (le_total a.Name b.Name) (not_or.mpr h1)
  · intro ho a
    simp [roleSearcher.compare_name K a a orderBy ho]

/-- The counterexample to C17: on a tie the swapped call returns what the
unswapped call returns, not its negation, both for names and for creation
timestamps. -/
theorem compare_swap_not_negation_counterexample :
    roleSearcher.compare exampleConsts ⟨"x", [], [], 2⟩ ⟨"x", [], [], 1⟩ "name"
      ≠ !roleSearcher.compare exampleConsts ⟨"x", [], [], 1⟩ ⟨"x", [], [], 2⟩ "name" ∧
    roleSearcher.compare exampleConsts ⟨"y", [], [], 5⟩ ⟨"x", [], [], 5⟩ "createTime"
      ≠ !roleSearcher.compare exampleConsts ⟨"x", [], [], 5⟩ ⟨"y", [], [], 5⟩ "createTime" := by
  constructor <;> decide

/-- C17 (amended): the comparison with the two records exchanged equals the
negated comparison exactly when the records differ on the ordering key; when
they tie on it the exchanged call returns the same value as the plain
call. -/
theorem compare_swap_eq_negation_iff_keys_differ (K : Consts) (a b : Role) (orderBy : String) :
    (roleSearcher.compare K b a orderBy = (!roleSearcher.compare K a b orderBy) ↔
      roleSearcher.sameKey K orderBy a b = false) ∧
    (roleSearcher.sameKey K orderBy a b = true →
      roleSearcher.compare K b a orderBy = roleSearcher.compare K a b orderBy) := by
  by_cases ho : orderBy = K.CreateTime
  · subst ho
    simp only [roleSearcher.compare_createTime, roleSearcher.sameKey, if_true]
    constructor
    · by_cases h1 : a.CreationTimestamp < b.CreationTimestamp <;>
      by_cases h2 : b.CreationTimestamp < a.CreationTimestamp <;>
      simp [h1, h2] <;> omega
    · intro h
      have hab : a.CreationTimestamp = b.CreationTimestamp := by simpa using h
      simp [hab]
  · simp only [roleSearcher.compare_name K _ _ orderBy ho, roleSearcher.sameKey, if_neg ho]
    constructor
    · by_cases h1 : a.Name ≤ b.Name <;> by_cases h2 : b.Name ≤ a.Name
      · simp [h1, h2, le_antisymm h1 h2]
      · have hne : a.Name ≠ b.Name := fun h => h2 (h ▸ le_refl _)
        simp [h1, h2, hne]
      · have hne : a.Name ≠ b.Name := fun h => h1 (h ▸ le_refl _)
        simp [h1, h2, hne]
      · exact absurd (le_total a.Name b.Name) (not_or.mpr ⟨h1, h2⟩)
    · intro h
      have hab : a.Name = b.Name := by simpa using h
      simp [hab]

/-! ## The user-facing predicate -/

/-- The counterexample to C18: a record that carries the creator annotation
with the empty value is not user-facing. -/
theorem isUserFacingRole_present_but_empty_counterexample :
    roleEmptyCreator.Annotations.lookup exampleConsts.CreatorAnnotationKey = some "" ∧
    isUserFacingRole exampleConsts roleEmptyCreator = false ∧
    roleSearcher.match exampleConsts [(exampleConsts.UserFacing, "true")] roleEmptyCreator = false := by
  decide

/-- C18 (amended): `isUserFacingRole r` is true exactly when the creator
annotation is present in `r.Annotations` with a non-empty value; a record
lacking the annotation is not user-facing. -/
theorem isUserFacingRole_iff_creator_nonempty (K : Consts) (r : Role) :
    (isUserFacingRole K r = true ↔
      ∃ v, r.Annotations.lookup K.CreatorAnnotationKey = some v ∧ v ≠ "") ∧
    (r.Annotations.lookup K.CreatorAnnotationKey = none → isUserFacingRole K r = false) := by
  unfold isUserFacingRole GoMap.index
  cases h : r.Annotations.lookup K.CreatorAnnotationKey with
  | none => simp
  | some v => simp

/-! ## Search: the short-circuit and the reversal -/

/-- C19: the short-circuit for empty conditions cannot be observed: `Search`
returns what the variant that always runs the filter loop returns, because
`match` and `fuzzy` of the empty map are true for every record and the filter
keeps the candidates in their order. -/
theorem Search_eq_SearchAlwaysFilter (K : Consts) (s : roleSearcher) (ns : String)
    (conditions : Conditions) (orderBy : String) (reverse : Bool) :
    roleSearcher.Search K s ns conditions orderBy reverse
      = roleSearcher.SearchAlwaysFilter K s ns conditions orderBy reverse ∧
    (∀ r, roleSearcher.match K [] r = true ∧ roleSearcher.fuzzy K [] r = true) ∧
    (∀ roles : List Role, roles.filter (fun item =>
      roleSearcher.match K [] item && roleSearcher.fuzzy K [] item) = roles) := by
  refine ⟨?_, ?_, ?_⟩
  · unfold roleSearcher.Search roleSearcher.SearchAlwaysFilter
    cases s.informers ns with
    | error e => rfl
    | ok roles => simp only [roleSearcher.retained_eq_filter]
  · intro r
    simp [roleSearcher.match, roleSearcher.fuzzy]
  · intro roles
    simp [roleSearcher.match, roleSearcher.fuzzy]

/-- C20: when the records kept by the filter differ pairwise on the ordering
key (the creation timestamp for `CreateTime`, the name otherwise), `Search`
with `reverse` returns exactly the reversal of what `Search` without
`reverse` returns for the same store list, conditions and `orderBy`. -/
theorem Search_reverse_is_reversal_for_distinct_keys (K : Consts) (s : roleSearcher)
    (ns : String) (conditions : Conditions) (orderBy : String) (roles : List Role)
    (hList : s.informers ns = .ok roles)
    (hKeys : (roleSearcher.retained K conditions roles).Pairwise
      (fun x y => roleSearcher.sameKey K orderBy x y = false)) :
    ∃ fwd, roleSearcher.Search K s ns conditions orderBy false = .ok fwd ∧
      roleSearcher.Search K s ns conditions orderBy true = .ok fwd.reverse := by
  refine ⟨_, roleSearcher.Search_ok K s ns conditions orderBy false roles hList, ?_⟩
  rw [roleSearcher.Search_ok K s ns conditions orderBy true roles hList]
  congr 1
  by_cases ho : orderBy = K.CreateTime
  · subst ho
    refine reverse_eq_of_sorted_both_ways (fun r => r.CreationTimestamp)
      (roleSearcher.retained K conditions roles) _ _
      (sort.Slice_perm (roleSearcher.less_agrees_createTime K) _)
      (sort.Slice_perm (roleSearcher.less_agrees_createTime_reverse K) _) ?_
      (sort.Slice_sorted (roleSearcher.less_agrees_createTime K) _)
      (sort.Slice_sorted (roleSearcher.less_agrees_createTime_reverse K) _)
    exact hKeys.imp (fun h => by simpa [roleSearcher.sameKey] using h)
  · refine reverse_eq_of_sorted_both_ways (fun r => r.Name)
      (roleSearcher.retained K conditions roles) _ _
      (sort.Slice_perm (roleSearcher.less_agrees_name K orderBy ho) _)
      (sort.Slice_perm (roleSearcher.less_agrees_name_reverse K orderBy ho) _) ?_
      (sort.Slice_sorted (roleSearcher.less_agrees_name K orderBy ho) _)
      (sort.Slice_sorted (roleSearcher.less_agrees_name_reverse K orderBy ho) _)
    exact hKeys.imp (fun h => by simpa [roleSearcher.sameKey, ho] using h)

/-- The witness of C20: the two scenario records ordered by `name`. -/
theorem Search_reverse_is_reversal_for_distinct_keys_witness :
    storeBA.informers "" = .ok [roleB, roleA] ∧
    (roleSearcher.retained exampleConsts noConditions [roleB, roleA]).Pairwise
      (fun x y => roleSearcher.sameKey exampleConsts "name" x y = false) ∧
    ∃ fwd, roleSearcher.Search exampleConsts storeBA "" noConditions "name" false = .ok fwd ∧
      roleSearcher.Search exampleConsts storeBA "" noConditions "name" true = .ok fwd.reverse :=
  ⟨rfl, by decide,
    Search_reverse_is_reversal_for_distinct_keys exampleConsts storeBA "" noConditions "name"
      [roleB, roleA] rfl (by decide)⟩
end RoleSearch
